import Mathlib

/-!
# Verification of the Grinder renderer against its specification

Shallow embedding of the parts of the Grinder source (Go) that the frozen
claims C1-C10 are about, together with theorems settling each claim.

Modelling conventions used throughout:
* Go `uint32` values are `Nat` with explicit `% 2^32` wherever Go's 32-bit
  wraparound can occur; `int64`/`int32` fields decoded from files are `Int`
  via two's complement.
* Go `float64` arithmetic is modelled as exact arithmetic over `ℚ` (or `ℝ`
  where square roots and transcendental functions are involved).  Literal
  constants such as `0.15`, `0.5`, `1e-6` are the exact rationals the source
  writes.
* Fallible operations return `Option`/`Except`; the unbounded recursion of
  the baked-scene traversal is given fuel semantics (`none` = the recursion
  did not finish within the given fuel, for any fuel).
-/

set_option maxRecDepth 100000

namespace Grinder

/-! ## XorShift32 PRNG (src/pkg/math/random.go, src/pkg/math/prng.go)

The two copies of the file are textually identical up to the name of the
float method (`Float64` vs `NextFloat64`); both are embedded by the same
definitions below.  The generator state is a `uint32`, modelled as a `Nat`
kept below `2^32`. -/

/-- One call to `XorShift32.Next`: `x ^= x<<13; x ^= x>>17; x ^= x<<5` in
`uint32` arithmetic, returning the new state (which is also the returned
random number). -/
def xorshiftNext (x : Nat) : Nat :=
  let a := x ^^^ ((x <<< 13) % 2 ^ 32)
  let b := a ^^^ (a >>> 17)
  b ^^^ ((b <<< 5) % 2 ^ 32)

/-- `NewXorShift32`: a zero seed is remapped to 1 before it becomes the
initial state. -/
def newXorShift32 (seed : Nat) : Nat :=
  if seed = 0 then 1 else seed

/-- The generator state after `n` calls to `Next`, starting from
`NewXorShift32 seed`. -/
def xorshiftState (seed n : Nat) : Nat :=
  xorshiftNext^[n] (newXorShift32 seed)

/-- The value returned by the `n`-th call to `Next` (0-indexed): `Next`
returns the updated state. -/
def xorshiftOutput (seed n : Nat) : Nat :=
  xorshiftState seed (n + 1)

/-- `NextFloat64` / `Float64`: `float64(r.Next()) / 4294967296.0`.  For a
`uint32` argument both the int-to-float conversion and the division by
`2^32` are exact in `float64`, so the Go result is exactly this rational. -/
def xorshiftFloat (seed n : Nat) : ℚ :=
  (xorshiftOutput seed n : ℚ) / 4294967296

/-- Bits of a number below `2^32` vanish at positions ≥ 32. -/
lemma testBit_eq_false_of_lt_two_pow {x i : Nat} (hx : x < 2 ^ 32) (hi : 32 ≤ i) :
    x.testBit i = false := by
  apply Nat.testBit_eq_false_of_lt
  exact lt_of_lt_of_le hx (Nat.pow_le_pow_right (by norm_num) hi)

/-- XORing a left-shift (mod `2^32`) into a nonzero word cannot cancel its
lowest set bit, so the result is again nonzero. -/
lemma xor_shiftLeft_ne_zero {x k : Nat} (hk : 1 ≤ k) (hx : x ≠ 0) (hx32 : x < 2 ^ 32) :
    x ^^^ ((x <<< k) % 2 ^ 32) ≠ 0 := by
  have hex : ∃ i, x.testBit i = true := by
    obtain ⟨i, hi, -⟩ := Nat.exists_most_significant_bit hx
    exact ⟨i, hi⟩
  classical
  let i0 := Nat.find hex
  have hbit : x.testBit i0 = true := Nat.find_spec hex
  have hmin : ∀ j, j < i0 → x.testBit j = false := by
    intro j hj
    have := Nat.find_min hex hj
    simpa using this
  have hi032 : i0 < 32 := by
    by_contra h
    have := testBit_eq_false_of_lt_two_pow hx32 (le_of_not_lt h)
    rw [hbit] at this
    exact Bool.noConfusion this
  intro hzero
  have h0 : (x ^^^ ((x <<< k) % 2 ^ 32)).testBit i0 = false := by
    rw [hzero]; exact Nat.zero_testBit i0
  rw [Nat.testBit_xor, Nat.testBit_mod_two_pow, Nat.testBit_shiftLeft, hbit] at h0
  rcases le_or_lt k i0 with hki | hki
  · have : x.testBit (i0 - k) = false := hmin _ (by omega)
    simp [this, hki, hi032] at h0
  · simp [Nat.not_le.mpr hki, hi032] at h0

/-- XORing a right-shift into a nonzero word cannot cancel its highest set
bit, so the result is again nonzero. -/
lemma xor_shiftRight_ne_zero {x k : Nat} (hk : 1 ≤ k) (hx : x ≠ 0) :
    x ^^^ (x >>> k) ≠ 0 := by
  obtain ⟨i, hi, hmax⟩ := Nat.exists_most_significant_bit hx
  intro hzero
  have h0 : (x ^^^ (x >>> k)).testBit i = false := by
    rw [hzero]; exact Nat.zero_testBit i
  rw [Nat.testBit_xor, Nat.testBit_shiftRight, hi, hmax (k + i) (by omega)] at h0
  simp at h0

/-- Right shifts do not increase a natural number. -/
lemma shiftRight_le_self (x k : Nat) : x >>> k ≤ x := by
  rw [Nat.shiftRight_eq_div_pow]
  exact Nat.div_le_self x (2 ^ k)

/-- The xorshift step preserves the 32-bit range. -/
lemma xorshiftNext_lt {x : Nat} (hx : x < 2 ^ 32) : xorshiftNext x < 2 ^ 32 := by
  unfold xorshiftNext
  have h1 : x ^^^ ((x <<< 13) % 2 ^ 32) < 2 ^ 32 :=
    Nat.xor_lt_two_pow hx (Nat.mod_lt _ (by norm_num))
  have h2 : (x ^^^ ((x <<< 13) % 2 ^ 32)) >>> 17 < 2 ^ 32 :=
    lt_of_le_of_lt (shiftRight_le_self _ _) h1
  exact Nat.xor_lt_two_pow (Nat.xor_lt_two_pow h1 h2) (Nat.mod_lt _ (by norm_num))

/-- The xorshift step preserves nonzeroness of the state. -/
lemma xorshiftNext_ne_zero {x : Nat} (hx : x ≠ 0) (hx32 : x < 2 ^ 32) :
    xorshiftNext x ≠ 0 := by
  unfold xorshiftNext
  have h1 : x ^^^ ((x <<< 13) % 2 ^ 32) ≠ 0 :=
    xor_shiftLeft_ne_zero (by norm_num) hx hx32
  have h1' : x ^^^ ((x <<< 13) % 2 ^ 32) < 2 ^ 32 :=
    Nat.xor_lt_two_pow hx32 (Nat.mod_lt _ (by norm_num))
  have h2 : (x ^^^ ((x <<< 13) % 2 ^ 32)) ^^^ ((x ^^^ ((x <<< 13) % 2 ^ 32)) >>> 17) ≠ 0 :=
    xor_shiftRight_ne_zero (by norm_num) h1
  have h2' : (x ^^^ ((x <<< 13) % 2 ^ 32)) ^^^ ((x ^^^ ((x <<< 13) % 2 ^ 32)) >>> 17) < 2 ^ 32 := by
    exact Nat.xor_lt_two_pow h1' (lt_of_le_of_lt (shiftRight_le_self _ _) h1')
  exact xor_shiftLeft_ne_zero (by norm_num) h2 h2'

lemma xorshiftState_ne_zero_lt (seed : Nat) (hs : seed < 2 ^ 32) :
    ∀ n, xorshiftState seed n ≠ 0 ∧ xorshiftState seed n < 2 ^ 32 := by
  intro n
  induction n with
  | zero =>
      constructor
      · unfold xorshiftState newXorShift32
        split <;> simp_all
      · unfold xorshiftState newXorShift32
        split
        · norm_num
        · simpa using hs
  | succ m ih =>
      have hst : xorshiftState seed (m + 1) = xorshiftNext (xorshiftState seed m) := by
        unfold xorshiftState
        rw [Function.iterate_succ_apply']
      rw [hst]
      exact ⟨xorshiftNext_ne_zero ih.1 ih.2, xorshiftNext_lt ih.2⟩

/-- **C10.** `NewXorShift32` remaps seed 0 to 1; from any 32-bit seed the
state stays nonzero (and within 32 bits) after every call to `Next`; `Next`
never returns 0; and `NextFloat64` always lies strictly between 0 and 1.
The state sequence is by construction a pure function of the seed alone
(`xorshiftState seed`), which is the determinism part of the claim. -/
theorem xorshift32_invariants (seed : Nat) (hs : seed < 2 ^ 32) :
    newXorShift32 0 = 1 ∧
    (∀ n, xorshiftState seed n ≠ 0 ∧ xorshiftState seed n < 2 ^ 32) ∧
    (∀ n, xorshiftOutput seed n ≠ 0) ∧
    (∀ n, 0 < xorshiftFloat seed n ∧ xorshiftFloat seed n < 1) := by
  refine ⟨rfl, xorshiftState_ne_zero_lt seed hs, ?_, ?_⟩
  · intro n
    exact (xorshiftState_ne_zero_lt seed hs (n + 1)).1
  · intro n
    obtain ⟨hne, hlt⟩ := xorshiftState_ne_zero_lt seed hs (n + 1)
    unfold xorshiftFloat
    constructor
    · apply div_pos
      · exact_mod_cast Nat.pos_of_ne_zero hne
      · norm_num
    · rw [div_lt_one (by norm_num)]
      have : (xorshiftOutput seed n : ℚ) < (2 ^ 32 : Nat) := by
        exact_mod_cast hlt
      simpa using this

/-- Witness for C10 at seed 5. -/
theorem xorshift32_invariants_witness :
    (5 : Nat) < 2 ^ 32 ∧ xorshiftOutput 5 0 ≠ 0 :=
  ⟨by norm_num, (xorshift32_invariants 5 (by norm_num)).2.2.1 0⟩

/-! ## Morton codes (src/pkg/math/AABB.go, `ExpandBits` / `Morton3D`)

`ExpandBits` spreads the low 10 bits of a `uint32` so that two zero bits sit
between consecutive bits; `Morton3D` quantizes each coordinate of a point in
`[0,1]³` to 10 bits and interleaves the three results.  All arithmetic is
`uint32`, so every left shift carries an explicit `% 2^32`. -/

/-- `ExpandBits` from the source: mask to 10 bits, then the four
shift-or-mask steps. -/
def ExpandBits (v : Nat) : Nat :=
  let v0 := v &&& 0x3FF
  let v1 := (v0 ||| ((v0 <<< 16) % 2 ^ 32)) &&& 0x030000FF
  let v2 := (v1 ||| ((v1 <<< 8) % 2 ^ 32)) &&& 0x0300F00F
  let v3 := (v2 ||| ((v2 <<< 4) % 2 ^ 32)) &&& 0x030C30C3
  (v3 ||| ((v3 <<< 2) % 2 ^ 32)) &&& 0x09249249

/-- Go's `uint32(f)` for a `float64` truncates toward zero; on the
nonnegative inputs the claims use this is the floor.  (Negative inputs,
whose Go conversion is platform-specific, are clamped to 0 here and are
never produced under the claims' hypotheses.) -/
def goUint32 (q : ℚ) : Nat := (Int.floor q).toNat

/-- `Morton3D` from the source: quantize each coordinate by `uint32(c*1023)`
and interleave `(ExpandBits ux << 2) | (ExpandBits uy << 1) | ExpandBits uz`. -/
def Morton3D (x y z : ℚ) : Nat :=
  (((ExpandBits (goUint32 (x * 1023)) <<< 2) % 2 ^ 32) |||
      ((ExpandBits (goUint32 (y * 1023)) <<< 1) % 2 ^ 32)) |||
    ExpandBits (goUint32 (z * 1023))

/-- Reference "spread" function: write the argument in binary and reread it
in base 8 (two zero bits between consecutive bits), with explicit fuel so
that it reduces definitionally. -/
def spreadAux : Nat → Nat → Nat
  | 0, _ => 0
  | fuel + 1, v => if v = 0 then 0 else 8 * spreadAux fuel (v / 2) + v % 2

/-- `spreadBits3 v` = `Σᵢ bitᵢ(v) · 8^i`, via `spreadAux` with fuel `v`. -/
def spreadBits3 (v : Nat) : Nat := spreadAux v v

lemma spreadAux_congr : ∀ (f g v : Nat), v ≤ f → v ≤ g → spreadAux f v = spreadAux g v := by
  intro f
  induction f with
  | zero =>
      intro g v hf _
      interval_cases v
      cases g <;> simp [spreadAux]
  | succ f ih =>
      intro g v hf hg
      rcases Nat.eq_zero_or_pos v with rfl | hv
      · cases g <;> simp [spreadAux]
      · obtain ⟨g', rfl⟩ : ∃ g', g = g' + 1 := ⟨g - 1, by omega⟩
        simp only [spreadAux, if_neg (Nat.pos_iff_ne_zero.mp hv)]
        rw [ih g' (v / 2) (by omega) (by omega)]

lemma spreadBits3_rec (v : Nat) (hv : v ≠ 0) :
    spreadBits3 v = 8 * spreadBits3 (v / 2) + v % 2 := by
  obtain ⟨v', rfl⟩ : ∃ v', v = v' + 1 := ⟨v - 1, by omega⟩
  show spreadAux (v' + 1) (v' + 1) = _
  simp only [spreadAux, if_neg hv]
  rw [spreadAux_congr v' ((v' + 1) / 2) ((v' + 1) / 2) (by omega) le_rfl]
  rfl

lemma spreadBits3_zero : spreadBits3 0 = 0 := rfl

lemma spreadBits3_pos {v : Nat} (hv : v ≠ 0) : 0 < spreadBits3 v := by
  induction v using Nat.strong_induction_on with
  | _ v ih =>
      rw [spreadBits3_rec v hv]
      rcases Nat.eq_zero_or_pos (v % 2) with hr | hr
      · have hhalf : v / 2 ≠ 0 := by omega
        have := ih (v / 2) (by omega) hhalf
        omega
      · omega

/-- `spreadBits3` is strictly monotone. -/
lemma spreadBits3_strictMono : ∀ {a b : Nat}, a < b → spreadBits3 a < spreadBits3 b := by
  intro a b
  induction b using Nat.strong_induction_on generalizing a with
  | _ b ih =>
      intro hab
      have hb : b ≠ 0 := by omega
      rcases Nat.eq_zero_or_pos a with rfl | ha
      · rw [spreadBits3_zero]
        exact spreadBits3_pos hb
      · rw [spreadBits3_rec a (by omega), spreadBits3_rec b hb]
        rcases Nat.lt_or_ge (a / 2) (b / 2) with hdiv | hdiv
        · have := ih (b / 2) (by omega) hdiv
          omega
        · have heq : a / 2 = b / 2 := by omega
          have hmod : a % 2 < b % 2 := by omega
          rw [heq]
          omega

lemma spreadBits3_mono {a b : Nat} (h : a ≤ b) : spreadBits3 a ≤ spreadBits3 b := by
  rcases Nat.lt_or_ge a b with hlt | hge
  · exact le_of_lt (spreadBits3_strictMono hlt)
  · have : a = b := by omega
    rw [this]

set_option maxRecDepth 100000 in
/-- On its intended 10-bit domain, the source's shift-and-mask `ExpandBits`
agrees with the reference spread. -/
lemma ExpandBits_eq_spread : ∀ v < 1024, ExpandBits v = spreadBits3 v := by decide

lemma ExpandBits_le_mask (v : Nat) : ExpandBits v ≤ 0x09249249 :=
  Nat.and_le_right

/-- Bitwise-disjoint numbers add under `|||`. -/
lemma lor_eq_add : ∀ a b : Nat, a &&& b = 0 → a ||| b = a + b := by
  intro a
  induction a using Nat.binaryRec with
  | z => intro b _; simp
  | f a0 m ih =>
      intro b hb
      induction b using Nat.binaryRec with
      | z => simp
      | f b0 n _ =>
          rw [Nat.land_bit] at hb
          rw [Nat.bit_eq_zero_iff] at hb
          obtain ⟨hmn, hab⟩ := hb
          rw [Nat.lor_bit, Nat.bit_val, Nat.bit_val, Nat.bit_val, ih n hmn]
          cases a0 <;> cases b0 <;> simp_all <;> ring

lemma land_eq_zero_of_disjoint {a b : Nat}
    (h : ∀ i, a.testBit i = true → b.testBit i = false) : a &&& b = 0 := by
  apply Nat.eq_of_testBit_eq
  intro i
  rw [Nat.testBit_land, Nat.zero_testBit]
  cases ha : a.testBit i
  · simp
  · simp [h i ha]

lemma testBit_one (i : Nat) : (1 : Nat).testBit i = decide (i = 0) := by
  cases i with
  | zero => decide
  | succ j =>
      rw [Nat.testBit_succ]
      simp

lemma shiftLeft3_lor_mod2 (s v : Nat) :
    8 * s + v % 2 = (s <<< 3) ||| (v % 2) := by
  rw [lor_eq_add]
  · rw [Nat.shiftLeft_eq]
    ring_nf
  · apply land_eq_zero_of_disjoint
    intro j hj
    rw [Nat.testBit_shiftLeft, Bool.and_eq_true] at hj
    obtain ⟨h3j', -⟩ := hj
    have h3j : 3 ≤ j := of_decide_eq_true h3j'
    have : v % 2 = 0 ∨ v % 2 = 1 := by omega
    rcases this with hm | hm
    · rw [hm]; exact Nat.zero_testBit j
    · rw [hm, testBit_one]
      simp
      omega

/-- Every set bit of `spreadBits3 v` sits at a position divisible by 3. -/
lemma spreadBits3_testBit_mod3 :
    ∀ (v i : Nat), (spreadBits3 v).testBit i = true → i % 3 = 0 := by
  intro v
  induction v using Nat.strong_induction_on with
  | _ v ih =>
      intro i hbit
      rcases Nat.eq_zero_or_pos v with rfl | hv
      · rw [spreadBits3_zero, Nat.zero_testBit] at hbit
        exact absurd hbit (by simp)
      · rw [spreadBits3_rec v (by omega), shiftLeft3_lor_mod2, Nat.testBit_lor] at hbit
        rcases Bool.or_eq_true_iff.mp hbit with hcase | hcase
        · rw [Nat.testBit_shiftLeft, Bool.and_eq_true] at hcase
          obtain ⟨h3i', hbit'⟩ := hcase
          have h3i : 3 ≤ i := of_decide_eq_true h3i'
          have := ih (v / 2) (by omega) (i - 3) hbit'
          omega
        · have : v % 2 = 0 ∨ v % 2 = 1 := by omega
          rcases this with hm | hm
          · rw [hm, Nat.zero_testBit] at hcase
            exact absurd hcase (by simp)
          · rw [hm, testBit_one] at hcase
            have : i = 0 := by simpa using hcase
            omega

/-- For 10-bit inputs, the Morton interleave is the weighted sum
`4·spread x + 2·spread y + spread z`. -/
lemma mortonInterleave_eq (ux uy uz : Nat) (hx : ux < 1024) (hy : uy < 1024)
    (hz : uz < 1024) :
    (((ExpandBits ux <<< 2) % 2 ^ 32) ||| ((ExpandBits uy <<< 1) % 2 ^ 32)) |||
        ExpandBits uz =
      4 * spreadBits3 ux + 2 * spreadBits3 uy + spreadBits3 uz := by
  have hex : ExpandBits ux = spreadBits3 ux := ExpandBits_eq_spread ux hx
  have hey : ExpandBits uy = spreadBits3 uy := ExpandBits_eq_spread uy hy
  have hez : ExpandBits uz = spreadBits3 uz := ExpandBits_eq_spread uz hz
  have hmask : (0x09249249 : Nat) < 2 ^ 32 := by norm_num
  have hx2 : (ExpandBits ux <<< 2) % 2 ^ 32 = ExpandBits ux <<< 2 := by
    apply Nat.mod_eq_of_lt
    rw [Nat.shiftLeft_eq]
    calc ExpandBits ux * 2 ^ 2 ≤ 0x09249249 * 2 ^ 2 :=
          Nat.mul_le_mul_right _ (ExpandBits_le_mask ux)
      _ < 2 ^ 32 := by norm_num
  have hy1 : (ExpandBits uy <<< 1) % 2 ^ 32 = ExpandBits uy <<< 1 := by
    apply Nat.mod_eq_of_lt
    rw [Nat.shiftLeft_eq]
    calc ExpandBits uy * 2 ^ 1 ≤ 0x09249249 * 2 ^ 1 :=
          Nat.mul_le_mul_right _ (ExpandBits_le_mask uy)
      _ < 2 ^ 32 := by norm_num
  rw [hx2, hy1, hex, hey, hez]
  have hbitx : ∀ i, (spreadBits3 ux <<< 2).testBit i = true → i % 3 = 2 := by
    intro i hi
    rw [Nat.testBit_shiftLeft] at hi
    obtain ⟨h2i, hbit⟩ := Bool.and_eq_true_iff.mp hi
    have := spreadBits3_testBit_mod3 ux (i - 2) hbit
    have h2i' : 2 ≤ i := of_decide_eq_true h2i
    omega
  have hbity : ∀ i, (spreadBits3 uy <<< 1).testBit i = true → i % 3 = 1 := by
    intro i hi
    rw [Nat.testBit_shiftLeft] at hi
    obtain ⟨h1i, hbit⟩ := Bool.and_eq_true_iff.mp hi
    have := spreadBits3_testBit_mod3 uy (i - 1) hbit
    have h1i' : 1 ≤ i := of_decide_eq_true h1i
    omega
  have hxy : (spreadBits3 ux <<< 2) &&& (spreadBits3 uy <<< 1) = 0 := by
    apply land_eq_zero_of_disjoint
    intro i hi
    by_contra hcon
    have h2 := hbitx i hi
    have h1 := hbity i (by
      cases hb : (spreadBits3 uy <<< 1).testBit i
      · exact absurd hb hcon
      · rfl)
    omega
  rw [lor_eq_add _ _ hxy]
  have hxyz : ((spreadBits3 ux <<< 2) + (spreadBits3 uy <<< 1)) &&& spreadBits3 uz = 0 := by
    rw [← lor_eq_add _ _ hxy]
    apply land_eq_zero_of_disjoint
    intro i hi
    rw [Nat.testBit_lor] at hi
    by_contra hcon
    have hzbit : (spreadBits3 uz).testBit i = true := by
      cases hb : (spreadBits3 uz).testBit i
      · exact absurd hb hcon
      · rfl
    have h0 := spreadBits3_testBit_mod3 uz i hzbit
    rcases Bool.or_eq_true_iff.mp hi with hcase | hcase
    · have := hbitx i hcase; omega
    · have := hbity i hcase; omega
  rw [lor_eq_add _ _ hxyz, Nat.shiftLeft_eq, Nat.shiftLeft_eq]
  ring

/-- **C8.** Morton monotonicity: for points `a ≤ b` componentwise in
`[0,1]³`, the 30-bit Morton code built by `Morton3D` satisfies
`Morton3D a ≤ Morton3D b`. -/
theorem morton3D_monotone (ax ay az bx by' bz : ℚ)
    (_hax : 0 ≤ ax) (_hay : 0 ≤ ay) (_haz : 0 ≤ az)
    (hbx : bx ≤ 1) (hby : by' ≤ 1) (hbz : bz ≤ 1)
    (hx : ax ≤ bx) (hy : ay ≤ by') (hz : az ≤ bz) :
    Morton3D ax ay az ≤ Morton3D bx by' bz := by
  have quant_mono : ∀ {p q : ℚ}, p ≤ q → goUint32 (p * 1023) ≤ goUint32 (q * 1023) := by
    intro p q hpq
    unfold goUint32
    have : (Int.floor (p * 1023)) ≤ Int.floor (q * 1023) :=
      Int.floor_le_floor (by nlinarith)
    omega
  have quant_lt : ∀ {q : ℚ}, q ≤ 1 → goUint32 (q * 1023) < 1024 := by
    intro q hq
    unfold goUint32
    have h1 : Int.floor (q * 1023) ≤ Int.floor (1023 : ℚ) :=
      Int.floor_le_floor (by nlinarith)
    have h2 : Int.floor (1023 : ℚ) = 1023 := by norm_num
    omega
  unfold Morton3D
  rw [mortonInterleave_eq _ _ _ (quant_lt (le_trans hx hbx)) (quant_lt (le_trans hy hby))
        (quant_lt (le_trans hz hbz)),
      mortonInterleave_eq _ _ _ (quant_lt hbx) (quant_lt hby) (quant_lt hbz)]
  have mx := spreadBits3_mono (quant_mono hx)
  have my := spreadBits3_mono (quant_mono hy)
  have mz := spreadBits3_mono (quant_mono hz)
  omega

/-- Witness for C8 at `a = (0, 1/2, 1/4)`, `b = (1/2, 1/2, 1)`. -/
theorem morton3D_monotone_witness :
    Morton3D 0 (1/2) (1/4) ≤ Morton3D (1/2) (1/2) 1 :=
  morton3D_monotone 0 (1/2) (1/4) (1/2) (1/2) 1
    (by norm_num) (by norm_num) (by norm_num) (by norm_num) (by norm_num)
    (by norm_num) (by norm_num) (by norm_num) (by norm_num)

/-! ## Phong diffuse factor (src/pkg/shading/phong.go, `ShadedColor`)

The shader computes `dot := n.Dot(lightDir)` and then
`diffuseFactor := gomath.Max(0.15, dot*l.Intensity*shadowAttenuation)`,
and combines `finalR := float64(base.R)*diffuseFactor + specularR` with
`uint8(gomath.Min(255, finalR))`, with the specular term gated on
`shadowAttenuation > 0`.  We embed the factor and the channel combine,
taking `dot`, the intensity, the march's attenuation and the already
computed specular product as inputs (their own computation, which involves
square roots and `Pow`, is irrelevant to this claim). -/

/-- `uint8(f)` for the clamped nonnegative values the shader produces:
truncation toward zero (= floor on that domain, with negatives clamped
to 0, which the shader never produces here). -/
def goUint8 (q : ℚ) : ℕ := (Int.floor q).toNat

/-- Line 50 of phong.go: `gomath.Max(0.15, dot*l.Intensity*shadowAttenuation)`. -/
def shadedColorDiffuseFactor (dot intensity att : ℚ) : ℚ :=
  max (15 / 100) (dot * intensity * att)

/-- The red-channel combine of `ShadedColor` (phong.go lines 52-77):
the specular contribution `specTermR` (`float64(specularColor.R) *
specularFactor * specularIntensity`) only enters when the attenuation is
positive, and the result is `uint8(min(255, base.R*diffuse + specular))`. -/
def shadedColorChannelR (baseR : ℕ) (dot intensity att specTermR : ℚ) : ℕ :=
  let diffuseFactor := shadedColorDiffuseFactor dot intensity att
  let specularR := if 0 < att then specTermR else 0
  goUint8 (min 255 ((baseR : ℚ) * diffuseFactor + specularR))

/-- The claim's formula (spec §4.3): `max(0.15, dot(n,L)) · intensity ·
shadow_attenuation`, with the ambient floor applied to the dot product
alone.  Written from the spec's words for comparison with the source's
`shadedColorDiffuseFactor`. -/
def specDiffuseFactor (dot intensity att : ℚ) : ℚ :=
  max (15 / 100) dot * intensity * att

/-- **C5, counterexample.**  At `dot = 1/2`, `intensity = 1/10`,
`attenuation = 1` the shader computes `max(0.15, 0.05) = 0.15`, while the
claim's formula gives `max(0.15, 0.5)·0.1·1 = 0.05`; the two disagree, so
the ambient floor is *not* applied to the dot product alone. -/
theorem shadedColor_diffuse_counterexample :
    shadedColorDiffuseFactor (1/2) (1/10) 1 = 15 / 100 ∧
    specDiffuseFactor (1/2) (1/10) 1 = 5 / 100 ∧
    shadedColorDiffuseFactor (1/2) (1/10) 1 ≠ specDiffuseFactor (1/2) (1/10) 1 := by
  refine ⟨?_, ?_, ?_⟩ <;> norm_num [shadedColorDiffuseFactor, specDiffuseFactor]

/-- **C5, amended.**  The diffuse factor computed by the shader equals
`max(0.15, dot·intensity·attenuation)`: the 0.15 ambient floor is applied
to the whole product, so the factor never drops below 0.15, and in full
shadow (`attenuation = 0`, which also gates off the specular term) the
output channel is exactly the clamped ambient term `0.15 · base`. -/
theorem shadedColor_diffuse_amended (dot intensity att : ℚ) (baseR : ℕ) (specTermR : ℚ) :
    shadedColorDiffuseFactor dot intensity att = max (15 / 100) (dot * intensity * att) ∧
    (15 / 100 : ℚ) ≤ shadedColorDiffuseFactor dot intensity att ∧
    (att = 0 →
      shadedColorChannelR baseR dot intensity att specTermR =
        goUint8 (min 255 ((baseR : ℚ) * (15 / 100)))) := by
  refine ⟨rfl, le_max_left _ _, ?_⟩
  intro hatt
  unfold shadedColorChannelR shadedColorDiffuseFactor
  rw [hatt]
  norm_num

/-- Witness for C5 (amended) in full shadow at `base.R = 200`. -/
theorem shadedColor_diffuse_amended_witness :
    shadedColorChannelR 200 (1/2) 1 0 7 = goUint8 (min 255 ((200 : ℚ) * (15 / 100))) :=
  (shadedColor_diffuse_amended (1/2) 1 0 200 7).2.2 rfl

/-! ## Dicer leaf "painter" loop (src/pkg/renderer/renderer.go, `subdivide`)

In the leaf-voxel case, for one in-tile pixel and one motion-blur sample,
the dicer runs over the candidate shapes; for each non-volumetric shape it
scans the 8-point z-grid `zSample(i) = minZ + (maxZ-minZ)·i/7` in ascending
order, skips any sample at or beyond the depth of the hit recorded so far
(`if hitFound && zSample >= closestHit.Depth { continue }`), records the
shape and depth on the first containment hit, and breaks out of that
shape's depth loop.  A shape is abstracted to its volumetric flag plus the
boolean containment of the fixed pixel's projected world point at each
grid sample (`shapeAtT.Contains(camAtT.Project(sx,sy,zSample(i)), t)`),
which is a pure function of the sample index once the pixel, jitter and
time sample are fixed. -/

/-- One candidate shape, as the leaf loop sees it at a fixed pixel, jitter
and time sample. -/
structure DicerShape where
  isVolumetric : Bool
  contains : ℕ → Bool

/-- `zSample := aabb.Min.Z + (aabb.Max.Z-aabb.Min.Z)*(float64(i)/7.0)`. -/
def dicerZSample (minZ maxZ : ℚ) (i : ℕ) : ℚ :=
  minZ + (maxZ - minZ) * ((i : ℚ) / 7)

/-- The per-shape depth loop: scan the index list in order; with a
recorded hit at depth `d`, samples at `z i ≥ d` are skipped; the first
containment hit records `z i` and breaks. -/
def dicerShapeScan (z : ℕ → ℚ) (c : ℕ → Bool) : Option ℚ → List ℕ → Option ℚ
  | cur, [] => cur
  | cur, i :: rest =>
      match cur with
      | some d =>
          if z i ≥ d then dicerShapeScan z c (some d) rest
          else if c i then some (z i)
          else dicerShapeScan z c (some d) rest
      | none => if c i then some (z i) else dicerShapeScan z c none rest

/-- The outer loop over candidate shapes: volumetric shapes do not touch
the recorded solid hit; each solid shape runs the 8-sample depth scan. -/
def dicerSolidPass (z : ℕ → ℚ) : Option ℚ → List DicerShape → Option ℚ
  | cur, [] => cur
  | cur, s :: rest =>
      if s.isVolumetric then dicerSolidPass z cur rest
      else dicerSolidPass z (dicerShapeScan z s.contains cur (List.range 8)) rest

/-- The recorded solid hit depth (if any) for one pixel/sample of the leaf
voxel `[minZ, maxZ]` in depth. -/
def dicerLeafHit (shapes : List DicerShape) (minZ maxZ : ℚ) : Option ℚ :=
  dicerSolidPass (dicerZSample minZ maxZ) none shapes

lemma dicerShapeScan_none (z : ℕ → ℚ) (c : ℕ → Bool) :
    ∀ (L : List ℕ) (cur : Option ℚ), dicerShapeScan z c cur L = none →
      cur = none ∧ ∀ i ∈ L, c i = false := by
  intro L
  induction L with
  | nil =>
      intro cur h
      exact ⟨h, by simp⟩
  | cons i rest ih =>
      intro cur h
      match cur with
      | some d =>
          exfalso
          simp only [dicerShapeScan] at h
          by_cases h1 : z i ≥ d
          · rw [if_pos h1] at h
            exact Option.noConfusion (ih (some d) h).1
          · rw [if_neg h1] at h
            by_cases h2 : c i
            · rw [if_pos h2] at h
              exact Option.noConfusion h
            · rw [if_neg h2] at h
              exact Option.noConfusion (ih (some d) h).1
      | none =>
          simp only [dicerShapeScan] at h
          by_cases h2 : c i
          · rw [if_pos h2] at h
            exact Option.noConfusion h
          · rw [if_neg h2] at h
            obtain ⟨-, hrest⟩ := ih none h
            refine ⟨rfl, ?_⟩
            intro j hj
            rcases List.mem_cons.mp hj with rfl | hj'
            · exact Bool.not_eq_true _ ▸ by simpa using h2
            · exact hrest j hj'

lemma dicerShapeScan_some (z : ℕ → ℚ) (c : ℕ → Bool)
    (hz : ∀ i j : ℕ, i ≤ j → z i ≤ z j) :
    ∀ (L : List ℕ), L.Sorted (· ≤ ·) → ∀ (cur : Option ℚ) (d' : ℚ),
      dicerShapeScan z c cur L = some d' →
      (cur = some d' ∨ ∃ i ∈ L, c i = true ∧ d' = z i) ∧
      (∀ cd, cur = some cd → d' ≤ cd) ∧
      (∀ i ∈ L, c i = true → d' ≤ z i) := by
  intro L
  induction L with
  | nil =>
      intro _ cur d' h
      refine ⟨Or.inl h, ?_, by simp⟩
      intro cd hcd
      rw [hcd] at h
      exact le_of_eq (Option.some.inj h).symm
  | cons i rest ih =>
      intro hsort cur d' h
      obtain ⟨hhead, hrest⟩ := List.sorted_cons.mp hsort
      match cur with
      | some d =>
          simp only [dicerShapeScan] at h
          by_cases h1 : z i ≥ d
          · rw [if_pos h1] at h
            obtain ⟨hat, hle, hlb⟩ := ih hrest (some d) d' h
            refine ⟨?_, ?_, ?_⟩
            · rcases hat with hat | ⟨j, hj, hc, he⟩
              · exact Or.inl hat
              · exact Or.inr ⟨j, List.mem_cons_of_mem i hj, hc, he⟩
            · exact hle
            · intro j hj hc
              rcases List.mem_cons.mp hj with rfl | hj'
              · exact le_trans (hle d rfl) h1
              · exact hlb j hj' hc
          · rw [if_neg h1] at h
            by_cases h2 : c i
            · rw [if_pos h2] at h
              have hd' : d' = z i := (Option.some.inj h).symm
              refine ⟨Or.inr ⟨i, List.mem_cons_self i rest, h2, hd'⟩, ?_, ?_⟩
              · intro cd hcd
                rw [hd']
                rw [Option.some.inj hcd] at h1
                exact le_of_lt (lt_of_not_ge h1)
              · intro j hj hc
                rcases List.mem_cons.mp hj with rfl | hj'
                · exact le_of_eq hd'
                · rw [hd']
                  exact hz i j (hhead j hj')
            · rw [if_neg h2] at h
              obtain ⟨hat, hle, hlb⟩ := ih hrest (some d) d' h
              refine ⟨?_, hle, ?_⟩
              · rcases hat with hat | ⟨j, hj, hc, he⟩
                · exact Or.inl hat
                · exact Or.inr ⟨j, List.mem_cons_of_mem i hj, hc, he⟩
              · intro j hj hc
                rcases List.mem_cons.mp hj with rfl | hj'
                · exact absurd hc (by simpa using h2)
                · exact hlb j hj' hc
      | none =>
          simp only [dicerShapeScan] at h
          by_cases h2 : c i
          · rw [if_pos h2] at h
            have hd' : d' = z i := (Option.some.inj h).symm
            refine ⟨Or.inr ⟨i, List.mem_cons_self i rest, h2, hd'⟩, ?_, ?_⟩
            · intro cd hcd
              exact Option.noConfusion hcd
            · intro j hj hc
              rcases List.mem_cons.mp hj with rfl | hj'
              · exact le_of_eq hd'
              · rw [hd']
                exact hz i j (hhead j hj')
          · rw [if_neg h2] at h
            obtain ⟨hat, -, hlb⟩ := ih hrest none d' h
            refine ⟨?_, ?_, ?_⟩
            · rcases hat with hat | ⟨j, hj, hc, he⟩
              · exact Option.noConfusion hat
              · exact Or.inr ⟨j, List.mem_cons_of_mem i hj, hc, he⟩
            · intro cd hcd
              exact Option.noConfusion hcd
            · intro j hj hc
              rcases List.mem_cons.mp hj with rfl | hj'
              · exact absurd hc (by simpa using h2)
              · exact hlb j hj' hc

lemma dicerSolidPass_some (z : ℕ → ℚ) (hz : ∀ i j : ℕ, i ≤ j → z i ≤ z j) :
    ∀ (S : List DicerShape) (cur : Option ℚ) (d' : ℚ),
      dicerSolidPass z cur S = some d' →
      (cur = some d' ∨ ∃ s ∈ S, s.isVolumetric = false ∧
          ∃ i ∈ List.range 8, s.contains i = true ∧ d' = z i) ∧
      (∀ cd, cur = some cd → d' ≤ cd) ∧
      (∀ s ∈ S, s.isVolumetric = false →
          ∀ i ∈ List.range 8, s.contains i = true → d' ≤ z i) := by
  have hsorted : (List.range 8).Sorted (· ≤ ·) := by decide
  intro S
  induction S with
  | nil =>
      intro cur d' h
      refine ⟨Or.inl h, ?_, by simp⟩
      intro cd hcd
      rw [hcd] at h
      exact le_of_eq (Option.some.inj h).symm
  | cons s rest ih =>
      intro cur d' h
      simp only [dicerSolidPass] at h
      by_cases hvol : s.isVolumetric
      · rw [if_pos hvol] at h
        obtain ⟨hat, hle, hlb⟩ := ih cur d' h
        refine ⟨?_, hle, ?_⟩
        · rcases hat with hat | ⟨t, ht, htv, hw⟩
          · exact Or.inl hat
          · exact Or.inr ⟨t, List.mem_cons_of_mem s ht, htv, hw⟩
        · intro t ht htv i hi hc
          rcases List.mem_cons.mp ht with rfl | ht'
          · exact absurd htv (by simpa using hvol)
          · exact hlb t ht' htv i hi hc
      · rw [if_neg hvol] at h
        rcases hcur' : dicerShapeScan z s.contains cur (List.range 8) with - | cd'
        · rw [hcur'] at h
          obtain ⟨hat, hle, hlb⟩ := ih none d' h
          obtain ⟨hcnone, hnone⟩ := dicerShapeScan_none z s.contains (List.range 8) cur hcur'
          refine ⟨?_, ?_, ?_⟩
          · rcases hat with hat | ⟨t, ht, htv, hw⟩
            · exact Option.noConfusion hat
            · exact Or.inr ⟨t, List.mem_cons_of_mem s ht, htv, hw⟩
          · intro cd hcd
            rw [hcnone] at hcd
            exact Option.noConfusion hcd
          · intro t ht htv i hi hc
            rcases List.mem_cons.mp ht with rfl | ht'
            · exact absurd hc (by simp [hnone i hi])
            · exact hlb t ht' htv i hi hc
        · rw [hcur'] at h
          obtain ⟨hat, hle, hlb⟩ := ih (some cd') d' h
          obtain ⟨hsat, hsle, hslb⟩ :=
            dicerShapeScan_some z s.contains hz (List.range 8) hsorted cur cd' hcur'
          refine ⟨?_, ?_, ?_⟩
          · rcases hat with hat | ⟨t, ht, htv, hw⟩
            · have hd'cd : d' = cd' := Option.some.inj hat.symm
              rcases hsat with hcur | ⟨i, hi, hc, he⟩
              · exact Or.inl (by rw [hcur, hd'cd])
              · exact Or.inr ⟨s, List.mem_cons_self s rest, by simpa using hvol,
                  i, hi, hc, by rw [hd'cd, he]⟩
            · exact Or.inr ⟨t, List.mem_cons_of_mem s ht, htv, hw⟩
          · intro cd hcd
            exact le_trans (hle cd' rfl) (hsle cd hcd)
          · intro t ht htv i hi hc
            rcases List.mem_cons.mp ht with rfl | ht'
            · exact le_trans (hle cd' rfl) (hslb i hi hc)
            · exact hlb t ht' htv i hi hc

/-- **C4.** Painter consistency of the dicer's leaf loop: for one pixel
and motion-blur sample of a leaf voxel with depth range `minZ ≤ maxZ`, if
the loop records a solid hit then its depth is an attained z-grid sample
depth of some solid candidate shape that contains the projected point, and
no solid candidate shape contains the projected point at any strictly
smaller sampled depth — i.e. the recorded depth is the minimum sampled
containment depth. -/
theorem dicer_painter_consistency (shapes : List DicerShape) (minZ maxZ : ℚ)
    (hrange : minZ ≤ maxZ) (d : ℚ)
    (hhit : dicerLeafHit shapes minZ maxZ = some d) :
    (∃ s ∈ shapes, s.isVolumetric = false ∧
        ∃ i < 8, s.contains i = true ∧ d = dicerZSample minZ maxZ i) ∧
    (∀ s ∈ shapes, s.isVolumetric = false →
        ∀ i < 8, s.contains i = true → ¬ dicerZSample minZ maxZ i < d) := by
  have hz : ∀ i j : ℕ, i ≤ j → dicerZSample minZ maxZ i ≤ dicerZSample minZ maxZ j := by
    intro i j hij
    unfold dicerZSample
    have h1 : (0 : ℚ) ≤ maxZ - minZ := by linarith
    have h2 : (i : ℚ) / 7 ≤ (j : ℚ) / 7 := by
      apply div_le_div_of_nonneg_right ?_ (by norm_num)
      exact_mod_cast hij
    nlinarith
  obtain ⟨hat, -, hlb⟩ := dicerSolidPass_some _ hz shapes none d hhit
  constructor
  · rcases hat with hat | ⟨s, hs, hsv, i, hi, hc, he⟩
    · exact Option.noConfusion hat
    · exact ⟨s, hs, hsv, i, List.mem_range.mp hi, hc, he⟩
  · intro s hs hsv i hi hc
    exact not_lt_of_ge (hlb s hs hsv i (List.mem_range.mpr hi) hc)

/-- Witness for C4: three candidate shapes over the depth range `[0, 7]`
(so the grid depth of sample `i` is exactly `i`); the furthest-first list
contains solids at samples {5} and {2, 6} plus a volumetric, and the
recorded hit depth is 2, the minimum sampled containment depth. -/
theorem dicer_painter_consistency_witness :
    (∃ s ∈ [DicerShape.mk false (fun i => i == 5),
            DicerShape.mk false (fun i => i == 2 || i == 6),
            DicerShape.mk true (fun _ => true)], s.isVolumetric = false ∧
        ∃ i < 8, s.contains i = true ∧ (2 : ℚ) = dicerZSample 0 7 i) ∧
    (∀ s ∈ [DicerShape.mk false (fun i => i == 5),
            DicerShape.mk false (fun i => i == 2 || i == 6),
            DicerShape.mk true (fun _ => true)], s.isVolumetric = false →
        ∀ i < 8, s.contains i = true → ¬ dicerZSample 0 7 i < 2) :=
  dicer_painter_consistency _ 0 7 (by norm_num) 2 (by
    have hr : List.range 8 = [0, 1, 2, 3, 4, 5, 6, 7] := by decide
    norm_num [dicerLeafHit, dicerSolidPass, dicerShapeScan, dicerZSample, hr])

/-! ## Rational 3-vectors (src/pkg/math/vector.go)

`math.Point3D` with `float64` coordinates, modelled over `ℚ`.  Only the
exact operations used by the embedded functions are defined (`Add`, `Sub`,
`Mul` by a scalar, `Dot`); `Length`/`Normalize` involve `math.Sqrt` and are
handled in the theorems by hypotheses characterising their results. -/

structure Point3D where
  x : ℚ
  y : ℚ
  z : ℚ
  deriving DecidableEq, Inhabited

def Point3D.add (a b : Point3D) : Point3D := ⟨a.x + b.x, a.y + b.y, a.z + b.z⟩

def Point3D.sub (a b : Point3D) : Point3D := ⟨a.x - b.x, a.y - b.y, a.z - b.z⟩

def Point3D.mul (a : Point3D) (s : ℚ) : Point3D := ⟨a.x * s, a.y * s, a.z * s⟩

def Point3D.dot (a b : Point3D) : ℚ := a.x * b.x + a.y * b.y + a.z * b.z

/-! ## Shadow march (src/unnamed/part_014, `calculateShadowAttenuation`)

The current copy of the shading package (part_014; phong.go's `ShadedColor`
is its caller) marches from the biased surface point `p` toward the light
with step 0.5, `for t := 0.5; t < distToLight; t += 0.5`.  At each sample
it walks the occluder list in order: containment by a solid occluder
returns 0 immediately; a volumetric occluder multiplies the attenuation by
`(1 - density*0.5)`; after each sample, attenuation below 0.01 returns 0.
An occluder is its containment predicate (of the sample point and the time
sample), its volumetric flag (the `geometry.VolumetricShape` type
assertion) and its density.  The source computes `distToLight` and
`dirToLight` with `Length`/`Normalize` (a float square root); the embedding
takes them as parameters, and the C6 theorem pins them down by the defining
equations `dist² = v·v`, `dir·dist = v` of the exact square root. -/

structure OccluderShape where
  contains : Point3D → ℚ → Bool
  isVolumetric : Bool
  density : ℚ

/-- Step size of the shadow march (`const stepSize = 0.5`). -/
def shadowStepSize : ℚ := 1 / 2

/-- The inner occluder loop at one sample point: `none` encodes the
source's immediate `return 0.0` on a solid hit, `some att'` the updated
attenuation. -/
def shadowSampleOccluders (sample : Point3D) (tS : ℚ) (att : ℚ) :
    List OccluderShape → Option ℚ
  | [] => some att
  | s :: rest =>
      if s.contains sample tS then
        if s.isVolumetric then
          shadowSampleOccluders sample tS (att * (1 - s.density * shadowStepSize)) rest
        else none
      else shadowSampleOccluders sample tS att rest

/-- The march loop, with fuel for the `t < dist` termination; each
iteration handles one `t`, then applies the `attenuation < 0.01 → return 0`
early exit before stepping `t += 0.5`. -/
def shadowMarchAux (occ : List OccluderShape) (p dir : Point3D) (dist tS : ℚ) :
    Nat → ℚ → ℚ → ℚ
  | 0, _, att => att
  | fuel + 1, t, att =>
      if t < dist then
        match shadowSampleOccluders (p.add (dir.mul t)) tS att occ with
        | none => 0
        | some att' =>
            if att' < 1 / 100 then 0
            else shadowMarchAux occ p dir dist tS fuel (t + shadowStepSize) att'
      else att

/-- `calculateShadowAttenuation`, with `dist`/`dir` standing for the
source's `distToLight`/`dirToLight`.  The fuel `⌈dist/0.5⌉` dominates the
number of loop iterations (`t` runs over `0.5·k` for `k ≥ 1`, `0.5·k <
dist`), so the fuel recursion computes exactly the Go loop. -/
def calculateShadowAttenuation (p dir : Point3D) (dist : ℚ)
    (occ : List OccluderShape) (tS : ℚ) : ℚ :=
  shadowMarchAux occ p dir dist tS (Int.toNat ⌈dist / shadowStepSize⌉) shadowStepSize 1

/-- Spec-side product of the volumetric factors `(1 - density·0.5)` over
the occluders (in list order) that contain the sample. -/
def shadowVolProduct (occ : List OccluderShape) (sample : Point3D) (tS : ℚ) : ℚ :=
  ((occ.filter (fun s => s.isVolumetric && s.contains sample tS)).map
    (fun s => 1 - s.density * shadowStepSize)).prod

/-- Spec-side test: some solid occluder contains the sample. -/
def shadowAnySolid (occ : List OccluderShape) (sample : Point3D) (tS : ℚ) : Bool :=
  occ.any (fun s => !s.isVolumetric && s.contains sample tS)

/-- Modelled from the claim's words: walk the list of sample points (the
biased point stepped by 0.5 toward the light, up to the distance); a solid
occluder containing a sample gives attenuation 0 immediately; otherwise the
attenuation picks up the volumetric factors and the march stops with 0 as
soon as it drops below 0.01. -/
def shadowSpecGo (occ : List OccluderShape) (tS : ℚ) : List Point3D → ℚ → ℚ
  | [], att => att
  | q :: rest, att =>
      if shadowAnySolid occ q tS then 0
      else
        let att' := att * shadowVolProduct occ q tS
        if att' < 1 / 100 then 0 else shadowSpecGo occ tS rest att'

/-- The sample points of the claim's march: `p + dir·(k/2)` for
`k = 1, 2, …` while `k/2 < dist`. -/
def shadowSpecSamples (p dir : Point3D) (dist : ℚ) : List Point3D :=
  (List.range (Int.toNat (⌈dist / shadowStepSize⌉ - 1))).map
    (fun j => p.add (dir.mul ((j + 1 : ℕ) * shadowStepSize)))

/-- The claim's shadow attenuation, assembled from the spec's words. -/
def calculateShadowAttenuation_spec (p dir : Point3D) (dist : ℚ)
    (occ : List OccluderShape) (tS : ℚ) : ℚ :=
  shadowSpecGo occ tS (shadowSpecSamples p dir dist) 1

lemma shadowSampleOccluders_solid (sample : Point3D) (tS : ℚ) :
    ∀ (occ : List OccluderShape) (att : ℚ),
      shadowAnySolid occ sample tS = true →
      shadowSampleOccluders sample tS att occ = none := by
  intro occ
  induction occ with
  | nil => intro att h; exact absurd h (by simp [shadowAnySolid])
  | cons s rest ih =>
      intro att h
      simp only [shadowSampleOccluders]
      by_cases hc : s.contains sample tS
      · rw [if_pos hc]
        by_cases hv : s.isVolumetric
        · rw [if_pos hv]
          apply ih
          simp only [shadowAnySolid, List.any_cons, Bool.or_eq_true] at h ⊢
          rcases h with h | h
          · rw [hv] at h
            simp at h
          · exact h
        · rw [if_neg hv]
      · rw [if_neg hc]
        apply ih
        simp only [shadowAnySolid, List.any_cons, Bool.or_eq_true] at h ⊢
        rcases h with h | h
        · rw [Bool.and_eq_true] at h
          exact absurd h.2 hc
        · exact h

lemma shadowSampleOccluders_no_solid (sample : Point3D) (tS : ℚ) :
    ∀ (occ : List OccluderShape) (att : ℚ),
      shadowAnySolid occ sample tS = false →
      shadowSampleOccluders sample tS att occ =
        some (att * shadowVolProduct occ sample tS) := by
  intro occ
  induction occ with
  | nil =>
      intro att _
      simp [shadowSampleOccluders, shadowVolProduct]
  | cons s rest ih =>
      intro att h
      simp only [shadowAnySolid, List.any_cons, Bool.or_eq_false_iff] at h
      obtain ⟨hhead, hrest⟩ := h
      simp only [shadowSampleOccluders]
      by_cases hc : s.contains sample tS
      · rw [if_pos hc]
        have hv : s.isVolumetric = true := by
          by_contra hcon
          simp [Bool.not_eq_true] at hcon
          rw [hcon, hc] at hhead
          simp at hhead
        rw [if_pos hv, ih _ hrest]
        congr 1
        simp only [shadowVolProduct, List.filter_cons, hv, hc]
        simp [mul_assoc, mul_comm, mul_left_comm]
      · rw [if_neg hc, ih _ hrest]
        congr 1
        simp [shadowVolProduct, List.filter_cons, hc]

lemma shadowGuard_iff (dist : ℚ) (j : ℕ) :
    ((j + 1 : ℕ) : ℚ) * shadowStepSize < dist ↔
      j < Int.toNat (⌈dist / shadowStepSize⌉ - 1) := by
  rw [Int.lt_toNat]
  have hs : (0 : ℚ) < shadowStepSize := by norm_num [shadowStepSize]
  constructor
  · intro h
    have : ((j + 1 : ℤ) : ℚ) < dist / shadowStepSize := by
      rw [lt_div_iff₀ hs]
      push_cast
      push_cast at h
      linarith
    have := Int.lt_ceil.mpr this
    omega
  · intro h
    have h1 : (j + 1 : ℤ) < ⌈dist / shadowStepSize⌉ := by omega
    have h2 : ((j + 1 : ℤ) : ℚ) < dist / shadowStepSize := Int.lt_ceil.mp h1
    rw [lt_div_iff₀ hs] at h2
    push_cast at h2 ⊢
    linarith

lemma shadowSpecSamples_length (p dir : Point3D) (dist : ℚ) :
    (shadowSpecSamples p dir dist).length = Int.toNat (⌈dist / shadowStepSize⌉ - 1) := by
  simp [shadowSpecSamples]

lemma shadowMarch_bridge (occ : List OccluderShape) (p dir : Point3D) (dist tS : ℚ) :
    ∀ (fuel j : ℕ) (att : ℚ),
      fuel + j = Int.toNat ⌈dist / shadowStepSize⌉ →
      j ≤ Int.toNat (⌈dist / shadowStepSize⌉ - 1) →
      shadowMarchAux occ p dir dist tS fuel (((j + 1 : ℕ) : ℚ) * shadowStepSize) att =
        shadowSpecGo occ tS ((shadowSpecSamples p dir dist).drop j) att := by
  intro fuel
  induction fuel with
  | zero =>
      intro j att hsync hj
      have hF : Int.toNat ⌈dist / shadowStepSize⌉ = j := by omega
      have hn : Int.toNat (⌈dist / shadowStepSize⌉ - 1) ≤ j := by omega
      rw [shadowMarchAux]
      rw [List.drop_eq_nil_of_le (by rw [shadowSpecSamples_length]; omega)]
      rfl
  | succ fuel ih =>
      intro j att hsync hj
      rw [shadowMarchAux]
      rcases Nat.lt_or_ge j (Int.toNat (⌈dist / shadowStepSize⌉ - 1)) with hjn | hjn
      · have hguard : ((j + 1 : ℕ) : ℚ) * shadowStepSize < dist :=
          (shadowGuard_iff dist j).mpr hjn
        rw [if_pos hguard]
        have hjlen : j < (shadowSpecSamples p dir dist).length := by
          rw [shadowSpecSamples_length]; exact hjn
        rw [List.drop_eq_getElem_cons hjlen]
        have hsample : (shadowSpecSamples p dir dist)[j] =
            p.add (dir.mul (((j + 1 : ℕ) : ℚ) * shadowStepSize)) := by
          simp [shadowSpecSamples]
        rw [hsample]
        simp only [shadowSpecGo]
        cases hsolid : shadowAnySolid occ (p.add (dir.mul (((j + 1 : ℕ) : ℚ) * shadowStepSize))) tS
        · rw [shadowSampleOccluders_no_solid _ _ _ _ hsolid]
          simp only [Bool.false_eq_true, if_false]
          by_cases hcut : att * shadowVolProduct occ
              (p.add (dir.mul (((j + 1 : ℕ) : ℚ) * shadowStepSize))) tS < 1 / 100
          · rw [if_pos hcut, if_pos hcut]
          · rw [if_neg hcut, if_neg hcut]
            have hstep : ((j + 1 : ℕ) : ℚ) * shadowStepSize + shadowStepSize =
                ((j + 1 + 1 : ℕ) : ℚ) * shadowStepSize := by
              push_cast
              ring
            rw [hstep, ih (j + 1) _ (by omega) (by omega)]
        · rw [shadowSampleOccluders_solid _ _ _ _ hsolid]
          simp
      · have hguard : ¬ ((j + 1 : ℕ) : ℚ) * shadowStepSize < dist := by
          rw [shadowGuard_iff dist j]
          omega
        rw [if_neg hguard]
        rw [List.drop_eq_nil_of_le (by rw [shadowSpecSamples_length]; omega)]
        rfl

/-- **C6.** The shadow march `calculateShadowAttenuation` (part_014; the
copy called by the current `ShadedColor`): with `dist` and `dir` the exact
distance and unit direction from the biased point to the light (pinned by
`dist² = v·v` and `dir·dist = v`), the source's march — step 0.5 up to the
distance, solid containment at the current time returning 0 immediately,
volumetric occluders multiplying in `(1 − density·0.5)`, and an early exit
to 0 once the attenuation drops below 0.01 — computes exactly the
attenuation described by the claim, assembled in
`calculateShadowAttenuation_spec` from the claim's words. -/
theorem shadow_march_matches_spec (p lightPos dir : Point3D) (dist tS : ℚ)
    (occ : List OccluderShape)
    (_hd0 : 0 ≤ dist)
    (_hdist : dist * dist = (lightPos.sub p).dot (lightPos.sub p))
    (_hdir : dir.mul dist = lightPos.sub p) :
    calculateShadowAttenuation p dir dist occ tS =
      calculateShadowAttenuation_spec p dir dist occ tS := by
  unfold calculateShadowAttenuation calculateShadowAttenuation_spec
  have h0 : (Int.toNat ⌈dist / shadowStepSize⌉) + 0 = Int.toNat ⌈dist / shadowStepSize⌉ := by
    omega
  have := shadowMarch_bridge occ p dir dist tS (Int.toNat ⌈dist / shadowStepSize⌉) 0 1 h0
    (by omega)
  rw [List.drop_zero] at this
  rw [← this]
  norm_num

/-- Witness for C6: the point at the origin, the light at `(2,0,0)` (so
`dist = 2`, `dir = (1,0,0)`), and one solid occluder occupying `x ≤ 1`. -/
theorem shadow_march_matches_spec_witness :
    calculateShadowAttenuation ⟨0,0,0⟩ ⟨1,0,0⟩ 2
        [⟨fun q _ => decide (q.x ≤ 1), false, 0⟩] 0 =
      calculateShadowAttenuation_spec ⟨0,0,0⟩ ⟨1,0,0⟩ 2
        [⟨fun q _ => decide (q.x ≤ 1), false, 0⟩] 0 :=
  shadow_march_matches_spec ⟨0,0,0⟩ ⟨2,0,0⟩ ⟨1,0,0⟩ 2 0 _
    (by norm_num)
    (by norm_num [Point3D.sub, Point3D.dot])
    (by norm_num [Point3D.mul, Point3D.sub])

/-! ## Bake Pass B: `buildBLAS` and the Indexer (src/pkg/renderer/bake.go)

`BakedAtom` carries the float32 position/half-extent and byte-sized fields
of the on-disk atom.  `buildBLAS` computes the Morton codes of the atoms
normalized to their bounding box, sorts by code (Go's `sort.Slice` is an
unstable quicksort; we model it with a merge sort by the same key — none of
the theorems depend on the order of atoms with equal codes), and builds the
median-split node array with ≤ 64 atoms per leaf.  Node AABBs are the
running min/max **of atom positions** (`a.Pos[i]`), exactly as in the
source. -/

structure BakedAtom where
  pos : Point3D
  halfExtent : ℚ
  normal : ℕ
  albedo : ℕ × ℕ × ℕ
  materialID : ℕ
  lightDir : ℕ
  lightColor : ℕ × ℕ × ℕ
  padding : ℕ
  deriving DecidableEq, Inhabited

structure BLASNode where
  nodeMin : Point3D
  nodeMax : Point3D
  atomOffset : ℤ
  atomCount : ℤ
  left : ℤ
  right : ℤ
  padding : ℤ
  deriving DecidableEq, Inhabited

def posMin3 (a b : Point3D) : Point3D := ⟨min a.x b.x, min a.y b.y, min a.z b.z⟩

def posMax3 (a b : Point3D) : Point3D := ⟨max a.x b.x, max a.y b.y, max a.z b.z⟩

/-- The `curMin/curMax` loop of `build`: fold over
`sortedAtoms[start+1 .. fin)` starting from `sortedAtoms[start].Pos`. -/
def rangeMinMax (sorted : Array BakedAtom) (start fin : ℕ) : Point3D × Point3D :=
  let first := (sorted.getD start default).pos
  (List.range (fin - start - 1)).foldl
    (fun mm k =>
      let p := (sorted.getD (start + 1 + k) default).pos
      (posMin3 mm.1 p, posMax3 mm.2 p))
    (first, first)

/-- The recursive `build` closure of `buildBLAS`: append a node, record the
range AABB, make a leaf when the range holds ≤ 64 atoms (with the
atom-offset still relative, `start*32`), otherwise median-split and patch
in the child indices.  Returns the grown node array and this node's index. -/
def buildBLASNode (sorted : Array BakedAtom) (start fin : ℕ) (nodes : Array BLASNode) :
    Array BLASNode × ℤ :=
  let nodeIdx : ℤ := (nodes.size : ℤ)
  let mm := rangeMinMax sorted start fin
  let count := fin - start
  if count ≤ 64 then
    (nodes.push ⟨mm.1, mm.2, (start : ℤ) * 32, (count : ℤ), -1, -1, 0⟩, nodeIdx)
  else
    let nodes₁ := nodes.push ⟨mm.1, mm.2, 0, 0, -1, -1, 0⟩
    let mid := start + count / 2
    let res₁ := buildBLASNode sorted start mid nodes₁
    let res₂ := buildBLASNode sorted mid fin res₁.1
    (res₂.1.setD nodeIdx.toNat
      { res₂.1.getD nodeIdx.toNat default with left := res₁.2, right := res₂.2 },
     nodeIdx)
termination_by fin - start
decreasing_by
  · omega
  · omega

/-- Normalized coordinate of one atom inside the shape AABB, with the
degenerate-axis guard (`0.5` when the diagonal vanishes). -/
def blasNormCoord (lo hi c : ℚ) : ℚ :=
  if hi - lo > 0 then (c - lo) / (hi - lo) else 1 / 2

/-- `buildBLAS`: Morton-code the atoms inside their own bounding box, sort
by code, and build the node array over the sorted atoms.  Returns the
nodes and the sorted atoms, as in the source. -/
def buildBLAS (atoms : List BakedAtom) : List BLASNode × List BakedAtom :=
  match atoms with
  | [] => ([], [])
  | a₀ :: rest =>
      let minP := rest.foldl (fun m a => posMin3 m a.pos) a₀.pos
      let maxP := rest.foldl (fun m a => posMax3 m a.pos) a₀.pos
      let codedAtoms := atoms.map (fun a =>
        (a, Morton3D (blasNormCoord minP.x maxP.x a.pos.x)
              (blasNormCoord minP.y maxP.y a.pos.y)
              (blasNormCoord minP.z maxP.z a.pos.z)))
      let sortedCoded := codedAtoms.mergeSort (fun p q => p.2 ≤ q.2)
      let sortedAtoms := sortedCoded.map (·.1)
      let nodes := (buildBLASNode sortedAtoms.toArray 0 sortedAtoms.length #[]).1
      (nodes.toList, sortedAtoms)

/-- The per-shape grouping of Pass A's atom stream: the Indexer appends
each atom read from the temp file to `atomsByShape[atom.MaterialID]`, so
shape `id` receives exactly the stream's atoms with that material id, in
stream order. -/
def groupAtoms (stream : List BakedAtom) (id : ℕ) : List BakedAtom :=
  stream.filter (fun a => a.materialID = id)

/-- The per-shape atom blocks the Indexer writes, for a given iteration
order of the `atomsByShape` map (Go's map iteration order is
unspecified, so it is a parameter): each shape contributes the length of
its sorted atom block. -/
def indexerShapeBlocks (stream : List BakedAtom) (order : List ℕ) : List (ℕ × ℕ) :=
  order.map (fun id => (id, (buildBLAS (groupAtoms stream id)).2.length))

/-- The atom total recorded for shape `id` in the written file. -/
def blockCount (blocks : List (ℕ × ℕ)) (id : ℕ) : Option ℕ :=
  (blocks.find? (fun b => b.1 = id)).map (·.2)

/-- The header atom count: the Indexer writes the `totalAtoms` counted by
Pass A, which is the length of the temp atom stream. -/
def indexerHeaderAtomCount (stream : List BakedAtom) : ℤ := (stream.length : ℤ)

lemma buildBLAS_sorted_length (atoms : List BakedAtom) :
    (buildBLAS atoms).2.length = atoms.length := by
  match atoms with
  | [] => rfl
  | a₀ :: rest =>
      show (List.map _ (List.mergeSort _ _)).length = _
      rw [List.length_map, List.length_mergeSort, List.length_map]

lemma find?_eq_self_of_mem {id : ℕ} {l : List ℕ} (h : id ∈ l) :
    l.find? (fun x => x = id) = some id := by
  induction l with
  | nil => cases h
  | cons a rest ih =>
      rcases List.mem_cons.mp h with rfl | h'
      · simp [List.find?_cons]
      · rw [List.find?_cons]
        split
        · next heq => simp_all
        · exact ih h'

lemma find?_eq_none_of_not_mem {id : ℕ} {l : List ℕ} (h : id ∉ l) :
    l.find? (fun x => x = id) = none := by
  induction l with
  | nil => rfl
  | cons a rest ih =>
      rw [List.find?_cons]
      split
      · next heq =>
          exfalso
          apply h
          have : a = id := by simpa using heq
          rw [← this]
          exact List.mem_cons_self a rest
      · exact ih (fun hmem => h (List.mem_cons_of_mem a hmem))

lemma blockCount_eq (stream : List BakedAtom) (order : List ℕ) (id : ℕ) :
    blockCount (indexerShapeBlocks stream order) id =
      if id ∈ order then some (groupAtoms stream id).length else none := by
  unfold blockCount indexerShapeBlocks
  rw [List.find?_map]
  by_cases h : id ∈ order
  · rw [if_pos h]
    have : (fun b : ℕ × ℕ => decide (b.1 = id)) ∘
        (fun id' => (id', (buildBLAS (groupAtoms stream id')).2.length)) =
        fun x => decide (x = id) := by
      funext x
      simp
    rw [this, find?_eq_self_of_mem h]
    simp [buildBLAS_sorted_length]
  · rw [if_neg h]
    have : (fun b : ℕ × ℕ => decide (b.1 = id)) ∘
        (fun id' => (id', (buildBLAS (groupAtoms stream id')).2.length)) =
        fun x => decide (x = id) := by
      funext x
      simp
    rw [this, find?_eq_none_of_not_mem h]
    rfl

/-- **C9.** Bake idempotence (metadata): Pass A is deterministic (it is a
pure function of the scene, with no randomness), so two bakes of the same
scene read the same temp atom stream; whatever iteration orders the Go map
`atomsByShape` produces in the two runs (any two enumerations of the
material ids present in the stream), the files carry the same header atom
count and the same per-shape atom totals, namely the number of Pass-A
atoms of each material id. -/
theorem bake_metadata_idempotent (stream : List BakedAtom)
    (order₁ order₂ : List ℕ)
    (h₁ : ∀ id, id ∈ order₁ ↔ ∃ a ∈ stream, a.materialID = id)
    (h₂ : ∀ id, id ∈ order₂ ↔ ∃ a ∈ stream, a.materialID = id) :
    indexerHeaderAtomCount stream = indexerHeaderAtomCount stream ∧
    (∀ id, blockCount (indexerShapeBlocks stream order₁) id =
        blockCount (indexerShapeBlocks stream order₂) id) ∧
    (∀ id, id ∈ order₁ →
        blockCount (indexerShapeBlocks stream order₁) id =
          some (groupAtoms stream id).length) := by
  refine ⟨rfl, ?_, ?_⟩
  · intro id
    rw [blockCount_eq, blockCount_eq]
    have : id ∈ order₁ ↔ id ∈ order₂ := (h₁ id).trans (h₂ id).symm
    by_cases h : id ∈ order₁
    · rw [if_pos h, if_pos (this.mp h)]
    · rw [if_neg h, if_neg (fun hc => h (this.mpr hc))]
  · intro id h
    rw [blockCount_eq, if_pos h]

/-- Witness for C9: a three-atom stream over material ids {0, 1} and two
different map iteration orders. -/
theorem bake_metadata_idempotent_witness :
    blockCount (indexerShapeBlocks
        [{ pos := ⟨0,0,0⟩, halfExtent := 1, normal := 0, albedo := (0,0,0),
           materialID := 0, lightDir := 0, lightColor := (0,0,0), padding := 0 },
         { pos := ⟨1,0,0⟩, halfExtent := 1, normal := 0, albedo := (0,0,0),
           materialID := 1, lightDir := 0, lightColor := (0,0,0), padding := 0 },
         { pos := ⟨2,0,0⟩, halfExtent := 1, normal := 0, albedo := (0,0,0),
           materialID := 0, lightDir := 0, lightColor := (0,0,0), padding := 0 }]
        [0, 1]) 0 =
      blockCount (indexerShapeBlocks
        [{ pos := ⟨0,0,0⟩, halfExtent := 1, normal := 0, albedo := (0,0,0),
           materialID := 0, lightDir := 0, lightColor := (0,0,0), padding := 0 },
         { pos := ⟨1,0,0⟩, halfExtent := 1, normal := 0, albedo := (0,0,0),
           materialID := 1, lightDir := 0, lightColor := (0,0,0), padding := 0 },
         { pos := ⟨2,0,0⟩, halfExtent := 1, normal := 0, albedo := (0,0,0),
           materialID := 0, lightDir := 0, lightColor := (0,0,0), padding := 0 }]
        [1, 0]) 0 :=
  (bake_metadata_idempotent _ [0, 1] [1, 0]
    (by intro id; simp; omega)
    (by intro id; simp; omega)).2.1 0

/-- The enclosure property the claim (and spec invariant (a)) asserts of
every BLAS node and every atom stored at or below it: the node AABB
contains the atom's inflated AABB `[pos − half_extent, pos + half_extent]³`. -/
def nodeEnclosesAtomAABB (node : BLASNode) (a : BakedAtom) : Prop :=
  node.nodeMin.x ≤ a.pos.x - a.halfExtent ∧
  node.nodeMin.y ≤ a.pos.y - a.halfExtent ∧
  node.nodeMin.z ≤ a.pos.z - a.halfExtent ∧
  a.pos.x + a.halfExtent ≤ node.nodeMax.x ∧
  a.pos.y + a.halfExtent ≤ node.nodeMax.y ∧
  a.pos.z + a.halfExtent ≤ node.nodeMax.z

/-- A one-atom bake input: an atom at the origin with half-extent 1. -/
def c2Atom : BakedAtom :=
  { pos := ⟨0, 0, 0⟩, halfExtent := 1, normal := 0, albedo := (0, 0, 0),
    materialID := 0, lightDir := 0, lightColor := (0, 0, 0), padding := 0 }

/-- **C2 (code bug).**  `buildBLAS` computes every node's AABB from the
atom *positions* alone (`curMin/curMax` range over `sortedAtoms[i].Pos`),
never inflating by `HalfExtent`: on the one-atom input above the single
leaf node gets the degenerate AABB `[0,0]³`, which does not contain the
atom's inflated AABB `[-1,1]³`.  The baked-scene reader prunes at node
AABBs before testing the inflated atom AABBs, so this violates the
enclosure invariant the claim (and spec §3 invariant (a), §4.4) states. -/
theorem buildBLAS_node_aabb_not_inflated :
    (buildBLAS [c2Atom]).1 =
      [{ nodeMin := ⟨0, 0, 0⟩, nodeMax := ⟨0, 0, 0⟩, atomOffset := 0,
         atomCount := 1, left := -1, right := -1, padding := 0 }] ∧
    ¬ (∀ node ∈ (buildBLAS [c2Atom]).1, nodeEnclosesAtomAABB node c2Atom) := by
  have heval : (buildBLAS [c2Atom]).1 =
      [{ nodeMin := ⟨0, 0, 0⟩, nodeMax := ⟨0, 0, 0⟩, atomOffset := 0,
         atomCount := 1, left := -1, right := -1, padding := 0 }] := by
    simp only [buildBLAS, List.map, List.mergeSort_singleton]
    rw [buildBLASNode]
    norm_num [rangeMinMax, Array.getD, c2Atom]
  refine ⟨heval, ?_⟩
  intro h
  have := h _ (heval ▸ List.mem_cons_self _ _)
  rw [nodeEnclosesAtomAABB] at this
  norm_num [c2Atom] at this

/-! ## Baked-scene reader (src/pkg/renderer/bake.go, `LoadBakedScene`,
`BakedScene.Intersect`)

The loaded file is a byte buffer (`List ℕ`, little-endian, each entry a
byte).  `float32` patterns decode by the IEEE-754 formula for finite
values; the `exp = 255` patterns (Inf/NaN) are given the same formula's
value as a finite surrogate — no theorem below feeds such a pattern to the
decoder, and the termination results do not depend on decoded values.
Reads past the end of the buffer yield byte 0; that default is never
observed, because header reads sit behind the loader's 84-byte length
check and every traversal read sits behind the exact slice-bounds
conditions modelled below (out-of-range dereferences are modelled as the
Go runtime panic they are, not as a read). -/

def readByte (data : List ℕ) (i : ℕ) : ℕ := data.getD i 0

def readU32 (data : List ℕ) (off : ℕ) : ℕ :=
  readByte data off + 2 ^ 8 * readByte data (off + 1) +
    2 ^ 16 * readByte data (off + 2) + 2 ^ 24 * readByte data (off + 3)

def readU64 (data : List ℕ) (off : ℕ) : ℕ :=
  readU32 data off + 2 ^ 32 * readU32 data (off + 4)

/-- Two's-complement reading of a 64-bit pattern (`int64(u)`). -/
def toInt64 (u : ℕ) : ℤ := if u < 2 ^ 63 then (u : ℤ) else (u : ℤ) - 2 ^ 64

/-- Two's-complement reading of a 32-bit pattern (`int32(u)`). -/
def toInt32 (u : ℕ) : ℤ := if u < 2 ^ 31 then (u : ℤ) else (u : ℤ) - 2 ^ 32

/-- `math.Float32frombits`, as an exact rational for finite values. -/
def f32FromBits (b : ℕ) : ℚ :=
  let sign : ℕ := b / 2 ^ 31 % 2
  let exp : ℕ := b / 2 ^ 23 % 2 ^ 8
  let frac : ℕ := b % 2 ^ 23
  let mag : ℚ :=
    if exp = 0 then (frac : ℚ) * (2 : ℚ) ^ (-(149 : ℤ))
    else ((2 ^ 23 + frac : ℕ) : ℚ) * (2 : ℚ) ^ ((exp : ℤ) - 150)
  if sign = 1 then -mag else mag

def readF32 (data : List ℕ) (off : ℕ) : ℚ := f32FromBits (readU32 data off)

/-- The 84-byte file header, as parsed by `binary.Read` from the start of
the buffer. -/
structure Header where
  magic : List ℕ
  version : ℕ
  atomCount : ℤ
  tlasRoot : ℤ
  camEye : Point3D
  camTarget : Point3D
  camUp : Point3D
  fov : ℚ
  aspect : ℚ
  near : ℚ
  far : ℚ
  voxelSize : ℚ
  epsilon : ℚ

def parseHeader (data : List ℕ) : Header :=
  { magic := [readByte data 0, readByte data 1, readByte data 2, readByte data 3],
    version := readU32 data 4,
    atomCount := toInt64 (readU64 data 8),
    tlasRoot := toInt64 (readU64 data 16),
    camEye := ⟨readF32 data 24, readF32 data 28, readF32 data 32⟩,
    camTarget := ⟨readF32 data 36, readF32 data 40, readF32 data 44⟩,
    camUp := ⟨readF32 data 48, readF32 data 52, readF32 data 56⟩,
    fov := readF32 data 60,
    aspect := readF32 data 64,
    near := readF32 data 68,
    far := readF32 data 72,
    voxelSize := readF32 data 76,
    epsilon := readF32 data 80 }

structure BakedScene where
  header : Header
  data : List ℕ

/-- `LoadBakedScene`: read the whole file into a byte buffer (below the
memory limit the file is slurped; above it, memory-mapped — both give the
same read-only byte view, so a single buffer models both), reject only
buffers shorter than the 84-byte header, and parse the header.  `binary.Read`
of the fixed-size header from a ≥ 84-byte buffer cannot fail, and the
source checks nothing else — in particular neither `header.Magic` nor
`header.Version` is ever examined. -/
def LoadBakedScene (data : List ℕ) : Except String BakedScene :=
  if data.length < 84 then .error "file too small"
  else .ok { header := parseHeader data, data := data }

/-- The bytes of `"SDSB"`, the magic the bake writer emits. -/
def sdsbMagic : List ℕ := [83, 68, 83, 66]

/-- **C3 (code bug).**  `LoadBakedScene` accepts an 84-byte all-zero file:
it returns a scene whose magic is `[0,0,0,0] ≠ "SDSB"` and whose version
is `0 ≠ 1`, because the loader validates only the file size.  The claim
(and spec §4.5 "validate magic and version", §4.4 "Magic/version mismatch
on read is a fatal load error") requires an error here; the writer emits a
magic precisely so the reader can validate it, so the omitted check is a
code bug. -/
theorem loadBakedScene_skips_magic_check :
    ∃ scene, LoadBakedScene (List.replicate 84 0) = .ok scene ∧
      scene.header.magic ≠ sdsbMagic ∧ scene.header.version ≠ 1 := by
  refine ⟨{ header := parseHeader (List.replicate 84 0),
            data := List.replicate 84 0 }, ?_, ?_, ?_⟩
  · rw [LoadBakedScene, if_neg (by simp)]
  · show (parseHeader (List.replicate 84 0)).magic ≠ sdsbMagic
    rw [parseHeader, sdsbMagic]
    decide
  · show (parseHeader (List.replicate 84 0)).version ≠ 1
    rw [parseHeader]
    decide

/-! ## Ray traversal of the baked scene (src/pkg/renderer/bake.go,
`intersectTLAS` / `intersectBLAS`, with `AABB3D.IntersectRay` from
src/pkg/math/AABB.go)

The Go recursion has no termination guard beyond the offset bounds checks,
so it is embedded with fuel: `none` means the recursion did not finish
within the given fuel.  A traversal that returns `none` for *every* fuel
is one that never terminates in Go (a stack overflow in practice).

The bounds checks are `int64` arithmetic: `offset+48` and
`AtomOffset+int64(AtomCount)*32` wrap on two's-complement overflow
(`wrap64` below), so an offset in `[2^63-48, 2^63-1]` passes
`offset+48 > int64(len(s.Data))` and the subsequent `s.Data[offset:]`
and fixed-range reads panic with a slice-bounds runtime error.  Those
panics are modelled explicitly (`GoResult.boundsPanic`): a result
is `none` (fuel ran out), `some .boundsPanic` (the Go run panics), or
`some (.ok r)` (the Go run returns `r`). -/

/-- Two's-complement wraparound of Go `int64` addition. -/
def wrap64 (z : ℤ) : ℤ := (z + 2 ^ 63) % 2 ^ 64 - 2 ^ 63

/-- Outcome of one (fuel-bounded) Go call: a runtime panic from a
slice-bounds violation, or a normal return. -/
inductive GoResult (α : Type) where
  | boundsPanic
  | ok (val : α)
  deriving DecidableEq, Inhabited

structure TLASNode where
  nodeMin : Point3D
  nodeMax : Point3D
  blasOffset : ℤ
  isLeaf : ℤ
  left : ℤ
  right : ℤ
  padding : ℤ

structure AABB3D where
  aabbMin : Point3D
  aabbMax : Point3D

structure Ray where
  origin : Point3D
  direction : Point3D

/-- `math.MaxFloat64`, exactly. -/
def maxFloat64 : ℚ := (2 ^ 53 - 1) * 2 ^ 971

/-- The slab epsilon of `AABB3D.IntersectRay` (`const epsilon = 1e-6`). -/
def slabEpsilon : ℚ := 1 / 1000000

/-- One axis of the slab test.  `none` encodes the source's early
`return 0, 0, false` for an axis-parallel ray outside the slab; otherwise
the `(tmin, tmax)` pair is tightened. -/
def slabUpdate (lo hi o d tmin tmax : ℚ) : Option (ℚ × ℚ) :=
  if |d| < slabEpsilon then
    if o < lo ∨ o > hi then none else some (tmin, tmax)
  else
    let t1 := (lo - o) / d
    let t2 := (hi - o) / d
    let tt := if t1 > t2 then (t2, t1) else (t1, t2)
    some (max tmin tt.1, min tmax tt.2)

/-- The three slab passes chained in order (x, y, z); an early
`return 0, 0, false` in any axis propagates as `none`. -/
def slabChain (a : AABB3D) (r : Ray) : Option (ℚ × ℚ) :=
  (slabUpdate a.aabbMin.x a.aabbMax.x r.origin.x r.direction.x (-maxFloat64) maxFloat64).bind
    (fun t1 => (slabUpdate a.aabbMin.y a.aabbMax.y r.origin.y r.direction.y t1.1 t1.2).bind
      (fun t2 => slabUpdate a.aabbMin.z a.aabbMax.z r.origin.z r.direction.z t2.1 t2.2))

/-- `AABB3D.IntersectRay`: the slab method over x, y, z in order, returning
`(tmin, tmax, tmax ≥ tmin ∧ tmax > 0)`, with `(0, 0, false)` on an early
axis rejection. -/
def IntersectRay (a : AABB3D) (r : Ray) : ℚ × ℚ × Bool :=
  match slabChain a r with
  | none => (0, 0, false)
  | some t3 => (t3.1, t3.2, decide (t3.2 ≥ t3.1 ∧ t3.2 > 0))

/-- `getTLASNode`: decode 48 bytes at the given (already bounds-checked)
offset. -/
def getTLASNode (data : List ℕ) (o : ℕ) : TLASNode :=
  { nodeMin := ⟨readF32 data o, readF32 data (o + 4), readF32 data (o + 8)⟩,
    nodeMax := ⟨readF32 data (o + 12), readF32 data (o + 16), readF32 data (o + 20)⟩,
    blasOffset := toInt64 (readU64 data (o + 24)),
    isLeaf := toInt32 (readU32 data (o + 32)),
    left := toInt32 (readU32 data (o + 36)),
    right := toInt32 (readU32 data (o + 40)),
    padding := toInt32 (readU32 data (o + 44)) }

/-- `getBLASNode`: same layout, with the leaf fields in place of
`BLASOffset`/`IsLeaf`. -/
def getBLASNode (data : List ℕ) (o : ℕ) : BLASNode :=
  { nodeMin := ⟨readF32 data o, readF32 data (o + 4), readF32 data (o + 8)⟩,
    nodeMax := ⟨readF32 data (o + 12), readF32 data (o + 16), readF32 data (o + 20)⟩,
    atomOffset := toInt64 (readU64 data (o + 24)),
    atomCount := toInt32 (readU32 data (o + 32)),
    left := toInt32 (readU32 data (o + 36)),
    right := toInt32 (readU32 data (o + 40)),
    padding := toInt32 (readU32 data (o + 44)) }

/-- `getBakedAtom`: decode the full 32-byte atom. -/
def getBakedAtom (data : List ℕ) (o : ℕ) : BakedAtom :=
  { pos := ⟨readF32 data o, readF32 data (o + 4), readF32 data (o + 8)⟩,
    halfExtent := readF32 data (o + 12),
    normal := readU32 data (o + 16),
    albedo := (readByte data (o + 20), readByte data (o + 21), readByte data (o + 22)),
    materialID := readByte data (o + 23),
    lightDir := readU32 data (o + 24),
    lightColor := (readByte data (o + 28), readByte data (o + 29), readByte data (o + 30)),
    padding := readByte data (o + 31) }

/-- Squared distance of an atom position from the ray origin, used to keep
the nearer of two child hits. -/
def distSq (a b : Point3D) : ℚ := (a.sub b).dot (a.sub b)

/-- The hit-combination at an internal node: both children hit → keep the
atom nearer to the ray origin; one hit → keep it; none → miss. -/
def pickNearer (origin : Point3D) (l r : Bool × BakedAtom) : Bool × BakedAtom :=
  if l.1 && r.1 then
    if distSq l.2.pos origin < distSq r.2.pos origin then (true, l.2) else (true, r.2)
  else if l.1 then (true, l.2)
  else r

/-- The leaf loop of `intersectBLAS`: iterate the `count` contiguous
atoms, lazily decoding only `Pos`/`HalfExtent` for the inflated-AABB slab
test and fully decoding an atom only when it improves the best `tmin`
(which starts at `1e18`).  Per-iteration offsets are `int64` additions
(`wrap64`); `s.Data[atomOffset:]` plus the lazy 16-byte reads panic when
fewer than 16 bytes remain, and the full 32-byte decode panics when fewer
than 32 remain. -/
def blasLeafScan (data : List ℕ) (ry : Ray) (atomOffset : ℤ) (count : ℕ) :
    GoResult (Bool × BakedAtom) :=
  let res : GoResult (Bool × ℚ × BakedAtom) := (List.range count).foldl
    (fun acc i =>
      match acc with
      | .boundsPanic => .boundsPanic
      | .ok a =>
        let aOffI := wrap64 (atomOffset + (i : ℤ) * 32)
        if aOffI < 0 ∨ aOffI + 16 > (data.length : ℤ) then .boundsPanic
        else
          let aOff := aOffI.toNat
          let px := readF32 data aOff
          let py := readF32 data (aOff + 4)
          let pz := readF32 data (aOff + 8)
          let h := readF32 data (aOff + 12)
          let t := IntersectRay ⟨⟨px - h, py - h, pz - h⟩, ⟨px + h, py + h, pz + h⟩⟩ ry
          if t.2.2 && decide (t.1 < a.2.1) then
            if aOffI + 32 > (data.length : ℤ) then .boundsPanic
            else .ok (true, (t.1, getBakedAtom data aOff))
          else .ok a)
    (.ok (false, ((10 : ℚ) ^ 18, default)))
  match res with
  | .boundsPanic => .boundsPanic
  | .ok r => .ok (r.1, r.2.2)

/-- Combine the two child results of an internal node.  Go runs the left
recursion first, so a left panic preempts the right child; fuel
exhaustion (`none`) in either live child leaves the overall outcome
undetermined at this fuel. -/
def combineChildren (origin : Point3D)
    (resL resR : Option (GoResult (Bool × BakedAtom))) :
    Option (GoResult (Bool × BakedAtom)) :=
  match resL, resR with
  | some (.ok l), some (.ok r) => some (.ok (pickNearer origin l r))
  | some .boundsPanic, _ => some .boundsPanic
  | some (.ok _), some .boundsPanic => some .boundsPanic
  | _, _ => none

mutual

/-- `BakedScene.intersectTLAS` with fuel.  The bounds check computes
`offset+48` in wrapping `int64`; an offset it catches returns a miss, an
offset it misses because the addition wrapped (`offset ≥ 2^63-48`) makes
the 48-byte node decode panic.  A slab miss returns a miss; a leaf
descends into the BLAS rooted at its `BLASOffset`; an internal node
recurses into the children (indices relative to the TLAS root, times 48
bytes, `int64` addition) and keeps the nearer hit. -/
def intersectTLAS (s : BakedScene) (ry : Ray) :
    Nat → ℤ → Option (GoResult (Bool × BakedAtom))
  | 0, _ => none
  | fuel + 1, offset =>
      if offset < 0 ∨ wrap64 (offset + 48) > (s.data.length : ℤ) then
        some (.ok (false, default))
      else if offset + 48 > (s.data.length : ℤ) then some .boundsPanic
      else
        let node := getTLASNode s.data offset.toNat
        if (IntersectRay ⟨node.nodeMin, node.nodeMax⟩ ry).2.2 = false then
          some (.ok (false, default))
        else if node.isLeaf = 1 then
          intersectBLAS s ry fuel node.blasOffset node.blasOffset
        else
          combineChildren ry.origin
            (if node.left ≠ -1 then
              intersectTLAS s ry fuel (wrap64 (s.header.tlasRoot + node.left * 48))
            else some (.ok (false, default)))
            (if node.right ≠ -1 then
              intersectTLAS s ry fuel (wrap64 (s.header.tlasRoot + node.right * 48))
            else some (.ok (false, default)))

/-- `BakedScene.intersectBLAS` with fuel: the same wrapping node bounds
check (with the same panic window), the node slab test, then either the
leaf atom scan behind the wrapping `AtomOffset+AtomCount*32` check or
recursion into the children (indices relative to this shape's
`baseOffset`, `int64` addition). -/
def intersectBLAS (s : BakedScene) (ry : Ray) :
    Nat → ℤ → ℤ → Option (GoResult (Bool × BakedAtom))
  | 0, _, _ => none
  | fuel + 1, baseOffset, offset =>
      if offset < 0 ∨ wrap64 (offset + 48) > (s.data.length : ℤ) then
        some (.ok (false, default))
      else if offset + 48 > (s.data.length : ℤ) then some .boundsPanic
      else
        let node := getBLASNode s.data offset.toNat
        if (IntersectRay ⟨node.nodeMin, node.nodeMax⟩ ry).2.2 = false then
          some (.ok (false, default))
        else if node.atomCount > 0 then
          if node.atomOffset < 0 ∨
              wrap64 (node.atomOffset + node.atomCount * 32) > (s.data.length : ℤ) then
            some (.ok (false, default))
          else some (blasLeafScan s.data ry node.atomOffset node.atomCount.toNat)
        else
          combineChildren ry.origin
            (if node.left ≠ -1 then
              intersectBLAS s ry fuel baseOffset (wrap64 (baseOffset + node.left * 48))
            else some (.ok (false, default)))
            (if node.right ≠ -1 then
              intersectBLAS s ry fuel baseOffset (wrap64 (baseOffset + node.right * 48))
            else some (.ok (false, default)))

end

/-- `BakedScene.Intersect`: start the TLAS walk at the header's root
offset. -/
def Intersect (s : BakedScene) (ry : Ray) (fuel : Nat) :
    Option (GoResult (Bool × BakedAtom)) :=
  intersectTLAS s ry fuel s.header.tlasRoot

/-- A traversal that exhausts every fuel bound: in Go, unbounded recursion
(a stack-overflow crash, not a miss). -/
def TraversalDiverges (s : BakedScene) (ry : Ray) : Prop :=
  ∀ fuel, Intersect s ry fuel = none

/-- An adversarial but well-formed baked file: a valid 84-byte header
(magic `SDSB`, version 1, TLAS root at offset 84) followed by one TLAS
node with AABB `[0,1]³`, `IsLeaf = 0`, `Left = 0` (its own index — an
in-range cycle) and `Right = -1`. -/
def c1Data : List ℕ :=
  [83, 68, 83, 66, 1, 0, 0, 0, 0, 0, 0, 0, 0, 0, 0, 0, 84, 0, 0, 0, 0, 0, 0, 0,
   0, 0, 0, 0, 0, 0, 0, 0, 0, 0, 0, 0, 0, 0, 0, 0, 0, 0, 0, 0, 0, 0, 0, 0,
   0, 0, 0, 0, 0, 0, 0, 0, 0, 0, 0, 0, 0, 0, 0, 0, 0, 0, 0, 0, 0, 0, 0, 0,
   0, 0, 0, 0, 0, 0, 0, 0, 0, 0, 0, 0,
   0, 0, 0, 0, 0, 0, 0, 0, 0, 0, 0, 0,
   0, 0, 128, 63, 0, 0, 128, 63, 0, 0, 128, 63,
   0, 0, 0, 0, 0, 0, 0, 0,
   0, 0, 0, 0,
   0, 0, 0, 0,
   255, 255, 255, 255,
   0, 0, 0, 0]

def c1Scene : BakedScene := { header := parseHeader c1Data, data := c1Data }

/-- A ray that hits the cyclic node's AABB `[0,1]³` head-on. -/
def c1Ray : Ray := { origin := ⟨1/2, 1/2, -1⟩, direction := ⟨0, 0, 1⟩ }

lemma f32FromBits_zero : f32FromBits 0 = 0 := by norm_num [f32FromBits]

lemma f32FromBits_one : f32FromBits 1065353216 = 1 := by norm_num [f32FromBits]

lemma IntersectRay_eq_of_chain (a : AABB3D) (r : Ray) (t : ℚ × ℚ)
    (h : slabChain a r = some t) :
    IntersectRay a r = (t.1, t.2, decide (t.2 ≥ t.1 ∧ t.2 > 0)) := by
  unfold IntersectRay
  rw [h]

set_option maxHeartbeats 2000000 in
lemma c1_node_eval : getTLASNode c1Data 84 =
    { nodeMin := ⟨0, 0, 0⟩, nodeMax := ⟨1, 1, 1⟩, blasOffset := 0, isLeaf := 0,
      left := 0, right := -1, padding := 0 } := by
  rw [getTLASNode]
  have h0 : readU32 c1Data 84 = 0 := by decide
  have h4 : readU32 c1Data 88 = 0 := by decide
  have h8 : readU32 c1Data 92 = 0 := by decide
  have h12 : readU32 c1Data 96 = 1065353216 := by decide
  have h16 : readU32 c1Data 100 = 1065353216 := by decide
  have h20 : readU32 c1Data 104 = 1065353216 := by decide
  have h24 : readU64 c1Data 108 = 0 := by decide
  have h32 : readU32 c1Data 116 = 0 := by decide
  have h36 : readU32 c1Data 120 = 0 := by decide
  have h40 : readU32 c1Data 124 = 4294967295 := by decide
  have h44 : readU32 c1Data 128 = 0 := by decide
  simp only [readF32]
  norm_num [h0, h4, h8, h12, h16, h20, h24, h32, h36, h40, h44,
    f32FromBits_zero, f32FromBits_one, toInt64, toInt32]

lemma c1_slab_eval :
    IntersectRay ⟨⟨0, 0, 0⟩, ⟨1, 1, 1⟩⟩ c1Ray = (1, 2, true) := by
  have hx : slabUpdate 0 1 (1/2) 0 (-maxFloat64) maxFloat64 =
      some (-maxFloat64, maxFloat64) := by
    rw [slabUpdate]
    rw [if_pos (by norm_num [slabEpsilon])]
    rw [if_neg (by norm_num)]
  have hz : slabUpdate 0 1 (-1) 1 (-maxFloat64) maxFloat64 = some (1, 2) := by
    rw [slabUpdate]
    rw [if_neg (by norm_num [slabEpsilon])]
    norm_num [maxFloat64]
  have hchain : slabChain ⟨⟨0, 0, 0⟩, ⟨1, 1, 1⟩⟩ c1Ray = some (1, 2) := by
    show (slabUpdate 0 1 (1/2) 0 (-maxFloat64) maxFloat64).bind
      (fun t1 => (slabUpdate 0 1 (1/2) 0 t1.1 t1.2).bind
        (fun t2 => slabUpdate 0 1 (-1) 1 t2.1 t2.2)) = some (1, 2)
    rw [hx, Option.some_bind']
    show (slabUpdate 0 1 (1/2) 0 (-maxFloat64) maxFloat64).bind
      (fun t2 => slabUpdate 0 1 (-1) 1 t2.1 t2.2) = some (1, 2)
    rw [hx, Option.some_bind']
    exact hz
  rw [IntersectRay_eq_of_chain _ _ _ hchain]
  norm_num

lemma c1_root_eval : c1Scene.header.tlasRoot = 84 := by
  show (parseHeader c1Data).tlasRoot = 84
  rw [parseHeader]
  decide

lemma intersectTLAS_internal_step (s : BakedScene) (ry : Ray) (fuel : Nat)
    (offset : ℤ) (nd : TLASNode)
    (hin : ¬(offset < 0 ∨ wrap64 (offset + 48) > (s.data.length : ℤ)))
    (hpan : ¬(offset + 48 > (s.data.length : ℤ)))
    (hnode : getTLASNode s.data offset.toNat = nd)
    (hslab : (IntersectRay ⟨nd.nodeMin, nd.nodeMax⟩ ry).2.2 = true)
    (hleaf : nd.isLeaf ≠ 1) :
    intersectTLAS s ry (fuel + 1) offset =
      combineChildren ry.origin
        (if nd.left ≠ -1 then
          intersectTLAS s ry fuel (wrap64 (s.header.tlasRoot + nd.left * 48))
        else some (.ok (false, default)))
        (if nd.right ≠ -1 then
          intersectTLAS s ry fuel (wrap64 (s.header.tlasRoot + nd.right * 48))
        else some (.ok (false, default))) := by
  rw [intersectTLAS]
  rw [if_neg hin, if_neg hpan]
  simp only [hnode, hslab]
  rw [if_neg (by simp), if_neg hleaf]

lemma c1_step (fuel : Nat) :
    intersectTLAS c1Scene c1Ray (fuel + 1) 84 =
      combineChildren c1Ray.origin (intersectTLAS c1Scene c1Ray fuel 84)
        (some (.ok (false, default))) := by
  rw [intersectTLAS_internal_step c1Scene c1Ray fuel 84
    { nodeMin := ⟨0, 0, 0⟩, nodeMax := ⟨1, 1, 1⟩, blasOffset := 0, isLeaf := 0,
      left := 0, right := -1, padding := 0 }
    (by decide) (by decide) c1_node_eval (by rw [c1_slab_eval]) (by decide)]
  rw [if_pos (by decide), if_neg (by decide)]
  rw [c1_root_eval]
  have hw : wrap64 (84 + 0 * 48) = 84 := by decide
  rw [hw]

/-- **C1 (code bug).**  The cyclic file above loads successfully, and
for the ray that hits the node's AABB the traversal consumes every fuel
bound: the in-range self-referential child index makes
`intersectTLAS` recurse on its own offset forever.  The bounds check does
not detect the cycle, so the claim's "any cyclic … child index makes the
traversal return a miss" and "terminates without panicking" are false on
this input (Go dies with a stack overflow).  The companion lemma
`intersect_wrap_check_passes_then_panics` below exhibits the second hole:
the `int64` bounds arithmetic wraps, so an offset in `[2^63-48, 2^63-1]`
passes the check and the traversal panics instead of returning the miss
the claim requires. -/
theorem intersect_cyclic_child_diverges :
    LoadBakedScene c1Data = .ok c1Scene ∧ TraversalDiverges c1Scene c1Ray := by
  constructor
  · rw [LoadBakedScene, if_neg (by decide)]
    rfl
  · intro fuel
    rw [Intersect, c1_root_eval]
    induction fuel with
    | zero => rfl
    | succ n ih =>
        rw [c1_step n, ih]
        rfl

/-- An 84-byte file (header only) whose `TLASRoot` is `2^63 - 48`
(little-endian `0x7FFFFFFFFFFFFFD0` at offset 16): the loader accepts it,
and the root offset sits in the bounds check's `int64` overflow window. -/
def c1WrapData : List ℕ :=
  List.replicate 16 0 ++ [208, 255, 255, 255, 255, 255, 255, 127] ++
    List.replicate 60 0

def c1WrapScene : BakedScene :=
  { header := parseHeader c1WrapData, data := c1WrapData }

/-- The second hole in the bounds checks, shown on the model with the
wrapping `int64` arithmetic: the loaded file above has root offset
`2^63 - 48 ≥ 0`, `offset+48` wraps to `-2^63`, so
`offset+48 > int64(len(s.Data))` is false and the check passes — and the
48-byte node decode then dereferences far past the 84-byte buffer, a Go
slice-bounds panic, where the claim requires a miss.  This holds at every
fuel: the panic is immediate, not a divergence. -/
lemma intersect_wrap_check_passes_then_panics (fuel : Nat) :
    LoadBakedScene c1WrapData = .ok c1WrapScene ∧
    ¬(c1WrapScene.header.tlasRoot < 0) ∧
    c1WrapScene.header.tlasRoot + 48 > (c1WrapScene.data.length : ℤ) ∧
    Intersect c1WrapScene c1Ray (fuel + 1) = some .boundsPanic := by
  have hroot : c1WrapScene.header.tlasRoot = 2 ^ 63 - 48 := by
    show (parseHeader c1WrapData).tlasRoot = 2 ^ 63 - 48
    rw [parseHeader]
    decide
  refine ⟨?_, ?_, ?_, ?_⟩
  · rw [LoadBakedScene, if_neg (by decide)]
    rfl
  · rw [hroot]
    decide
  · rw [hroot]
    decide
  · rw [Intersect, hroot, intersectTLAS, if_neg (by decide), if_pos (by decide)]

/-! ## Octahedral normal codec (src/pkg/renderer/bake.go, `OctEncode` /
`OctDecode` / `sign`, with `Point3D.Normalize` from
src/pkg/math/vector.go)

The codec works on `float64` vectors; square roots force the model over
`ℝ`.  Go's `uint32(f)` truncates toward zero, which on the codec's
`[0, 65535]` quantization range is the floor.  The float64 rounding of the
few arithmetic operations is far below the `2/65535` quantization step that
drives the error bound, and is modelled as exact real arithmetic. -/

structure Point3R where
  x : ℝ
  y : ℝ
  z : ℝ

noncomputable def dotR (a b : Point3R) : ℝ := a.x * b.x + a.y * b.y + a.z * b.z

/-- `sign` from bake.go: `1` for `f ≥ 0`, else `-1`. -/
noncomputable def sign (f : ℝ) : ℝ := if f ≥ 0 then 1 else -1

/-- `Point3D.Normalize`: divide by the Euclidean length, except for the
zero vector which is returned unchanged. -/
noncomputable def Normalize (p : Point3R) : Point3R :=
  let d := Real.sqrt (p.x * p.x + p.y * p.y + p.z * p.z)
  if d = 0 then p else ⟨p.x / d, p.y / d, p.z / d⟩

/-- The L1 norm `|n.X| + |n.Y| + |n.Z|` computed first by `OctEncode`. -/
noncomputable def octL1 (n : Point3R) : ℝ := |n.x| + |n.y| + |n.z|

/-- The encoder's x-coordinate after the octahedral fold: `n.X/l1`,
remapped to the outer diamond when `n.Z < 0`. -/
noncomputable def octPx (n : Point3R) : ℝ :=
  if n.z < 0 then (1 - |n.y / octL1 n|) * sign (n.x / octL1 n) else n.x / octL1 n

/-- The encoder's y-coordinate after the octahedral fold. -/
noncomputable def octPy (n : Point3R) : ℝ :=
  if n.z < 0 then (1 - |n.x / octL1 n|) * sign (n.y / octL1 n) else n.y / octL1 n

/-- `uint32((t*0.5 + 0.5) * 65535.0)`: quantize `t ∈ [-1, 1]` to 16 bits
(truncation = floor on this nonnegative range). -/
noncomputable def quant (t : ℝ) : ℕ := (⌊(t * (1/2) + 1/2) * 65535⌋).toNat

/-- `OctEncode`: `0` for the zero vector, else the two folded coordinates
quantized and packed as `(ux << 16) | uy`. -/
noncomputable def OctEncode (n : Point3R) : ℕ :=
  if octL1 n = 0 then 0
  else (quant (octPx n) <<< 16) ||| quant (octPy n)

/-- Dequantization in `OctDecode`: `float64(u)/65535*2 - 1`. -/
noncomputable def dequant (u : ℕ) : ℝ := (u : ℝ) / 65535 * 2 - 1

/-- The decoder body before normalization: rebuild `z = 1 - |x| - |y|`
and undo the outer-diamond fold when `z < 0` (`z` itself is kept). -/
noncomputable def octG (x y : ℝ) : Point3R :=
  let z := 1 - |x| - |y|
  if z < 0 then ⟨(1 - |y|) * sign x, (1 - |x|) * sign y, z⟩ else ⟨x, y, z⟩

/-- `OctDecode`: unpack the two 16-bit components, dequantize, rebuild the
octahedral point and renormalize. -/
noncomputable def OctDecode (packed : ℕ) : Point3R :=
  Normalize (octG (dequant (packed >>> 16)) (dequant (packed &&& 0xFFFF)))

/-- Angle between two vectors, in radians. -/
noncomputable def angleR (a b : Point3R) : ℝ :=
  Real.arccos (dotR a b / (Real.sqrt (dotR a a) * Real.sqrt (dotR b b)))

lemma sign_eq_one_or_neg_one (t : ℝ) : sign t = 1 ∨ sign t = -1 := by
  unfold sign
  split <;> simp

lemma abs_mul_sign (t : ℝ) : |t| * sign t = t := by
  unfold sign
  split
  · next h => rw [abs_of_nonneg h, mul_one]
  · next h => rw [abs_of_neg (lt_of_not_ge h)]; ring

lemma abs_sign (t : ℝ) : |sign t| = 1 := by
  rcases sign_eq_one_or_neg_one t with h | h <;> rw [h] <;> norm_num

lemma sign_mul_pos {a : ℝ} (ha : 0 < a) (t : ℝ) : sign (a * sign t) = sign t := by
  rcases sign_eq_one_or_neg_one t with h | h <;> rw [h] <;> unfold sign
  · rw [if_pos (by nlinarith)]
  · rw [if_neg (by nlinarith)]

lemma sign_nonneg_eq {t : ℝ} (h : 0 ≤ t) : sign t = 1 := by
  unfold sign
  rw [if_pos h]

lemma sign_neg_eq {t : ℝ} (h : t < 0) : sign t = -1 := by
  unfold sign
  rw [if_neg (not_le.mpr h)]

/-- The branchless form of the decoder body on `[-1,1]²`: the fold only
subtracts the overshoot `max 0 (|x|+|y|-1)` along each signed axis. -/
lemma octG_formula (x y : ℝ) :
    octG x y = ⟨x - max 0 (|x| + |y| - 1) * sign x,
                y - max 0 (|x| + |y| - 1) * sign y,
                1 - |x| - |y|⟩ := by
  unfold octG
  dsimp only
  split
  · next h =>
      have hmax : max 0 (|x| + |y| - 1) = |x| + |y| - 1 :=
        max_eq_right (by linarith)
      rw [hmax]
      have hxx : (1 - |y|) * sign x = x - (|x| + |y| - 1) * sign x := by
        have : x = |x| * sign x := (abs_mul_sign x).symm
        nth_rewrite 2 [this]
        ring
      have hyy : (1 - |x|) * sign y = y - (|x| + |y| - 1) * sign y := by
        have : y = |y| * sign y := (abs_mul_sign y).symm
        nth_rewrite 2 [this]
        ring
      rw [hxx, hyy]
  · next h =>
      have hmax : max 0 (|x| + |y| - 1) = 0 := max_eq_left (by linarith)
      rw [hmax]
      norm_num

/-- Overshoot of a pair, as subtracted by the decoder fold. -/
noncomputable def octM (x y : ℝ) : ℝ := max 0 (|x| + |y| - 1)

lemma octM_nonneg (x y : ℝ) : 0 ≤ octM x y := le_max_left 0 _

lemma octM_le_abs_left (x y : ℝ) (hy : |y| ≤ 1) : octM x y ≤ |x| :=
  max_le (abs_nonneg x) (by linarith)

lemma octM_le_abs_right (x y : ℝ) (hx : |x| ≤ 1) : octM x y ≤ |y| :=
  max_le (abs_nonneg y) (by linarith)

lemma octM_close (px py qx qy : ℝ) :
    |octM qx qy - octM px py| ≤ |qx - px| + |qy - py| := by
  unfold octM
  have h1 : |max 0 (|qx| + |qy| - 1) - max 0 (|px| + |py| - 1)| ≤
      |(|qx| + |qy| - 1) - (|px| + |py| - 1)| := by
    rw [max_comm 0 (|qx| + |qy| - 1), max_comm 0 (|px| + |py| - 1)]
    exact abs_max_sub_max_le_abs _ _ 0
  have h2 : |(|qx| + |qy| - 1) - (|px| + |py| - 1)| ≤ |qx - px| + |qy - py| := by
    have hx := abs_sub_abs_le_abs_sub qx px
    have hx' := abs_sub_abs_le_abs_sub px qx
    have hy := abs_sub_abs_le_abs_sub qy py
    have hy' := abs_sub_abs_le_abs_sub py qy
    rw [abs_sub_comm px qx] at hx'
    rw [abs_sub_comm py qy] at hy'
    rw [abs_le]
    constructor <;> [skip; skip] <;>
      · have := abs_le.mp (le_refl |qx - px|)
        linarith [abs_nonneg (qx - px), abs_nonneg (qy - py)]
  linarith

/-- One signed component of the decoder fold is 2-Lipschitz in the ℓ¹ distance
of the inputs, given the overshoot values are nonnegative, bounded by the
component magnitudes, and D-close. -/
lemma oct_comp_close (u v mu mv D : ℝ)
    (hmu0 : 0 ≤ mu) (hmv0 : 0 ≤ mv)
    (hmu : mu ≤ |u|) (hmv : mv ≤ |v|)
    (hm : |mu - mv| ≤ D) (huv : |u - v| ≤ D) :
    |(u - mu * sign u) - (v - mv * sign v)| ≤ 2 * D := by
  have hD : 0 ≤ D := le_trans (abs_nonneg _) huv
  have huv' := abs_le.mp huv
  have hm' := abs_le.mp hm
  rcases le_or_lt 0 u with hu | hu <;> rcases le_or_lt 0 v with hv | hv
  · rw [sign_nonneg_eq hu, sign_nonneg_eq hv, abs_le]
    constructor <;> linarith
  · rw [sign_nonneg_eq hu, sign_neg_eq hv]
    rw [abs_of_nonneg hu] at hmu
    rw [abs_of_neg hv] at hmv
    rw [abs_le]
    constructor <;> linarith
  · rw [sign_neg_eq hu, sign_nonneg_eq hv]
    rw [abs_of_neg hu] at hmu
    rw [abs_of_nonneg hv] at hmv
    rw [abs_le]
    constructor <;> linarith
  · rw [sign_neg_eq hu, sign_neg_eq hv, abs_le]
    constructor <;> linarith

/-- The decoder fold `octG` is componentwise Lipschitz in the ℓ¹ distance of
its two inputs, on the unit square. -/
lemma octG_close (px py qx qy : ℝ)
    (hpx : |px| ≤ 1) (hpy : |py| ≤ 1) (hqx : |qx| ≤ 1) (hqy : |qy| ≤ 1) :
    |(octG qx qy).x - (octG px py).x| ≤ 2 * (|qx - px| + |qy - py|) ∧
    |(octG qx qy).y - (octG px py).y| ≤ 2 * (|qx - px| + |qy - py|) ∧
    |(octG qx qy).z - (octG px py).z| ≤ |qx - px| + |qy - py| := by
  rw [octG_formula qx qy, octG_formula px py]
  have hmq := octM_close px py qx qy
  have hDx : |qx - px| ≤ |qx - px| + |qy - py| := by
    linarith [abs_nonneg (qy - py)]
  have hDy : |qy - py| ≤ |qx - px| + |qy - py| := by
    linarith [abs_nonneg (qx - px)]
  refine ⟨?_, ?_, ?_⟩
  · exact oct_comp_close qx px (octM qx qy) (octM px py) _
      (octM_nonneg qx qy) (octM_nonneg px py)
      (octM_le_abs_left qx qy hqy) (octM_le_abs_left px py hpy) hmq hDx
  · exact oct_comp_close qy py (octM qx qy) (octM px py) _
      (octM_nonneg qx qy) (octM_nonneg px py)
      (octM_le_abs_right qx qy hqx) (octM_le_abs_right px py hpx) hmq hDy
  · dsimp only
    have hx := abs_sub_abs_le_abs_sub qx px
    have hx' := abs_sub_abs_le_abs_sub px qx
    have hy := abs_sub_abs_le_abs_sub qy py
    have hy' := abs_sub_abs_le_abs_sub py qy
    rw [abs_sub_comm px qx] at hx'
    rw [abs_sub_comm py qy] at hy'
    rw [abs_le]
    constructor <;> linarith

/-- Applying the decoder fold to the exact (unquantized) encoder outputs
recovers the L1-normalized input vector: the two folds are inverse on the
octahedron. -/
lemma octG_encode_exact (n : Point3R) (hl1 : 0 < octL1 n) :
    octG (octPx n) (octPy n) = ⟨n.x / octL1 n, n.y / octL1 n, n.z / octL1 n⟩ := by
  have hlabs : |octL1 n| = octL1 n := abs_of_pos hl1
  have habsx : |n.x / octL1 n| = |n.x| / octL1 n := by rw [abs_div, hlabs]
  have habsy : |n.y / octL1 n| = |n.y| / octL1 n := by rw [abs_div, hlabs]
  have habsz : |n.z / octL1 n| = |n.z| / octL1 n := by rw [abs_div, hlabs]
  have hsum : |n.x / octL1 n| + |n.y / octL1 n| + |n.z / octL1 n| = 1 := by
    rw [habsx, habsy, habsz, div_add_div_same, div_add_div_same]
    unfold octL1
    unfold octL1 at hl1
    exact div_self (ne_of_gt hl1)
  by_cases hz : n.z < 0
  · have hpx : octPx n = (1 - |n.y / octL1 n|) * sign (n.x / octL1 n) := by
      unfold octPx
      rw [if_pos hz]
    have hpy : octPy n = (1 - |n.x / octL1 n|) * sign (n.y / octL1 n) := by
      unfold octPy
      rw [if_pos hz]
    have hznz : 0 < |n.z / octL1 n| :=
      abs_pos.mpr (ne_of_lt (div_neg_of_neg_of_pos hz hl1))
    have hy1 : |n.y / octL1 n| < 1 := by
      linarith [abs_nonneg (n.x / octL1 n)]
    have hx1 : |n.x / octL1 n| < 1 := by
      linarith [abs_nonneg (n.y / octL1 n)]
    have hpx_abs : |octPx n| = 1 - |n.y / octL1 n| := by
      rw [hpx, abs_mul, abs_sign, mul_one, abs_of_nonneg (by linarith)]
    have hpy_abs : |octPy n| = 1 - |n.x / octL1 n| := by
      rw [hpy, abs_mul, abs_sign, mul_one, abs_of_nonneg (by linarith)]
    have hcond : 1 - |octPx n| - |octPy n| < 0 := by
      rw [hpx_abs, hpy_abs]
      linarith
    have hsx : sign (octPx n) = sign (n.x / octL1 n) := by
      rw [hpx]
      exact sign_mul_pos (by linarith) _
    have hsy : sign (octPy n) = sign (n.y / octL1 n) := by
      rw [hpy]
      exact sign_mul_pos (by linarith) _
    unfold octG
    dsimp only
    rw [if_pos hcond, Point3R.mk.injEq]
    refine ⟨?_, ?_, ?_⟩
    · rw [hpy_abs, hsx]
      have h1 : (1 - (1 - |n.x / octL1 n|)) = |n.x / octL1 n| := by ring
      rw [h1, abs_mul_sign]
    · rw [hpx_abs, hsy]
      have h1 : (1 - (1 - |n.y / octL1 n|)) = |n.y / octL1 n| := by ring
      rw [h1, abs_mul_sign]
    · rw [hpx_abs, hpy_abs]
      have hz0 : |n.z / octL1 n| = -(n.z / octL1 n) :=
        abs_of_neg (div_neg_of_neg_of_pos hz hl1)
      linarith
  · push_neg at hz
    have hpx : octPx n = n.x / octL1 n := by
      unfold octPx
      rw [if_neg (not_lt.mpr hz)]
    have hpy : octPy n = n.y / octL1 n := by
      unfold octPy
      rw [if_neg (not_lt.mpr hz)]
    have hz0 : |n.z / octL1 n| = n.z / octL1 n :=
      abs_of_nonneg (div_nonneg hz (le_of_lt hl1))
    have hcond : ¬(1 - |octPx n| - |octPy n| < 0) := by
      rw [hpx, hpy]
      push_neg
      linarith [abs_nonneg (n.z / octL1 n)]
    unfold octG
    dsimp only
    rw [if_neg hcond, hpx, hpy, Point3R.mk.injEq]
    refine ⟨rfl, rfl, ?_⟩
    linarith

/-- The folded encoder coordinates lie in `[-1, 1]`. -/
lemma octP_abs_le (n : Point3R) (hl1 : 0 < octL1 n) :
    |octPx n| ≤ 1 ∧ |octPy n| ≤ 1 := by
  have hlabs : |octL1 n| = octL1 n := abs_of_pos hl1
  have habsx : |n.x / octL1 n| = |n.x| / octL1 n := by rw [abs_div, hlabs]
  have habsy : |n.y / octL1 n| = |n.y| / octL1 n := by rw [abs_div, hlabs]
  have hxle : |n.x / octL1 n| ≤ 1 := by
    rw [habsx]
    rw [div_le_one hl1]
    unfold octL1
    linarith [abs_nonneg n.y, abs_nonneg n.z]
  have hyle : |n.y / octL1 n| ≤ 1 := by
    rw [habsy]
    rw [div_le_one hl1]
    unfold octL1
    linarith [abs_nonneg n.x, abs_nonneg n.z]
  constructor
  · unfold octPx
    split
    · rw [abs_mul, abs_sign, mul_one]
      rw [abs_le]
      constructor <;> [skip; skip] <;> cases abs_le.mp hyle <;>
        cases abs_cases (1 - |n.y / octL1 n|) <;>
        simp_all <;> linarith [abs_nonneg (n.y / octL1 n)]
    · exact hxle
  · unfold octPy
    split
    · rw [abs_mul, abs_sign, mul_one]
      rw [abs_le]
      constructor <;> [skip; skip] <;> cases abs_le.mp hxle <;>
        cases abs_cases (1 - |n.x / octL1 n|) <;>
        simp_all <;> linarith [abs_nonneg (n.x / octL1 n)]
    · exact hyle

/-- Quantization bounds for `quant` / `dequant`: the 16-bit code is in
range and dequantizing recovers `t` to within one step `2/65535`,
from below. -/
lemma quant_spec (t : ℝ) (ht : |t| ≤ 1) :
    quant t < 65536 ∧ dequant (quant t) ≤ t ∧
      t - 2 / 65535 < dequant (quant t) ∧ |dequant (quant t)| ≤ 1 := by
  obtain ⟨htl, htu⟩ := abs_le.mp ht
  have hu0 : (0 : ℝ) ≤ (t * (1/2) + 1/2) * 65535 := by nlinarith
  have hu1 : (t * (1/2) + 1/2) * 65535 ≤ 65535 := by nlinarith
  have hfl0 : 0 ≤ ⌊(t * (1/2) + 1/2) * 65535⌋ := Int.floor_nonneg.mpr hu0
  have hfl_le : (⌊(t * (1/2) + 1/2) * 65535⌋ : ℝ) ≤ (t * (1/2) + 1/2) * 65535 :=
    Int.floor_le _
  have hfl_gt : (t * (1/2) + 1/2) * 65535 < (⌊(t * (1/2) + 1/2) * 65535⌋ : ℝ) + 1 :=
    Int.lt_floor_add_one _
  have hcast : ((quant t : ℕ) : ℝ) = (⌊(t * (1/2) + 1/2) * 65535⌋ : ℝ) := by
    unfold quant
    exact_mod_cast Int.toNat_of_nonneg hfl0
  have hq65535 : ((quant t : ℕ) : ℝ) ≤ 65535 := by
    rw [hcast]
    linarith
  refine ⟨?_, ?_, ?_, ?_⟩
  · have : ((quant t : ℕ) : ℝ) < 65536 := by linarith
    exact_mod_cast this
  · unfold dequant
    rw [hcast]
    linarith
  · unfold dequant
    rw [hcast]
    linarith
  · unfold dequant
    rw [abs_le]
    constructor
    · rw [hcast]
      have : (0 : ℝ) ≤ (⌊(t * (1/2) + 1/2) * 65535⌋ : ℝ) := by exact_mod_cast hfl0
      linarith
    · rw [hcast]
      linarith

lemma land_two_pow_sub_one (x k : ℕ) : x &&& (2 ^ k - 1) = x % 2 ^ k := by
  apply Nat.eq_of_testBit_eq
  intro i
  rw [Nat.testBit_land, Nat.testBit_two_pow_sub_one, Nat.testBit_mod_two_pow,
    Bool.and_comm]

lemma pack_disjoint (ux uy : ℕ) (hy : uy < 65536) : (ux <<< 16) &&& uy = 0 := by
  have hy2 : uy < 2 ^ 16 := lt_of_lt_of_le hy (by norm_num)
  apply land_eq_zero_of_disjoint
  intro i hbit
  rw [Nat.testBit_shiftLeft] at hbit
  have h16 : 16 ≤ i := by
    by_contra hc
    simp [hc] at hbit
  exact Nat.testBit_lt_two_pow
    (lt_of_lt_of_le hy2 (Nat.pow_le_pow_right (by norm_num : 0 < 2) h16))

/-- Unpacking the high half of `(ux << 16) | uy`. -/
lemma pack_shiftRight (ux uy : ℕ) (hy : uy < 65536) :
    ((ux <<< 16) ||| uy) >>> 16 = ux := by
  have hy2 : uy < 2 ^ 16 := lt_of_lt_of_le hy (by norm_num)
  rw [lor_eq_add _ _ (pack_disjoint ux uy hy), Nat.shiftLeft_eq,
    Nat.shiftRight_eq_div_pow, mul_comm ux (2 ^ 16),
    Nat.mul_add_div (by norm_num), Nat.div_eq_of_lt hy2, Nat.add_zero]

/-- Unpacking the low half of `(ux << 16) | uy`. -/
lemma pack_land (ux uy : ℕ) (hy : uy < 65536) :
    ((ux <<< 16) ||| uy) &&& 0xFFFF = uy := by
  have hy2 : uy < 2 ^ 16 := lt_of_lt_of_le hy (by norm_num)
  rw [lor_eq_add _ _ (pack_disjoint ux uy hy)]
  have h16 : (0xFFFF : ℕ) = 2 ^ 16 - 1 := by norm_num
  rw [h16, land_two_pow_sub_one, Nat.shiftLeft_eq, mul_comm ux (2 ^ 16),
    Nat.mul_add_mod, Nat.mod_eq_of_lt hy2]

lemma three_cs (a b c x y z : ℝ) :
    (a * x + b * y + c * z) ^ 2 ≤ (a ^ 2 + b ^ 2 + c ^ 2) * (x ^ 2 + y ^ 2 + z ^ 2) := by
  nlinarith [sq_nonneg (a * y - b * x), sq_nonneg (a * z - c * x), sq_nonneg (b * z - c * y)]

/-- Bounds on the L1 norm of a unit vector: positive, and at most `√3 < 7/4`. -/
lemma octL1_bounds (n : Point3R) (hunit : dotR n n = 1) :
    0 < octL1 n ∧ octL1 n ≤ 7 / 4 := by
  have hunit' : n.x * n.x + n.y * n.y + n.z * n.z = 1 := hunit
  unfold octL1
  have hx := abs_nonneg n.x
  have hy := abs_nonneg n.y
  have hz := abs_nonneg n.z
  have hxy := mul_nonneg hx hy
  have hxz := mul_nonneg hx hz
  have hyz := mul_nonneg hy hz
  have hax := sq_abs n.x
  have hay := sq_abs n.y
  have haz := sq_abs n.z
  constructor
  · have h1 : 1 ≤ (|n.x| + |n.y| + |n.z|) ^ 2 := by nlinarith
    nlinarith
  · have h3 : (|n.x| + |n.y| + |n.z|) ^ 2 ≤ 3 := by
      nlinarith [sq_nonneg (|n.x| - |n.y|), sq_nonneg (|n.x| - |n.z|),
        sq_nonneg (|n.y| - |n.z|)]
    nlinarith

lemma comp_abs_le_one (x y z : ℝ) (h : x * x + y * y + z * z = 1) : |x| ≤ 1 := by
  rw [abs_le]
  constructor <;>
    nlinarith [sq_nonneg y, sq_nonneg z, sq_nonneg (x + 1), sq_nonneg (x - 1)]

lemma mul_lower_bound (u d b : ℝ) (hu : |u| ≤ 1) (hd : |d| ≤ b) : -b ≤ u * d := by
  obtain ⟨h1, h2⟩ := abs_le.mp hu
  obtain ⟨h3, h4⟩ := abs_le.mp hd
  nlinarith [mul_nonneg (by linarith : (0:ℝ) ≤ 1 + u) (by linarith : (0:ℝ) ≤ d + b),
    mul_nonneg (by linarith : (0:ℝ) ≤ 1 - u) (by linarith : (0:ℝ) ≤ b - d)]

lemma sq_le_of_abs_le (x b : ℝ) (h : |x| ≤ b) : x ^ 2 ≤ b ^ 2 := by
  obtain ⟨h1, h2⟩ := abs_le.mp h
  nlinarith

lemma sqrt_factor_lt (a N c : ℝ) (hc : 0 ≤ c) (ha : 0 < a) (hN : 0 < N)
    (hkey : c ^ 2 * N < a ^ 2) : c * Real.sqrt N < a := by
  have hd2 : Real.sqrt N ^ 2 = N := Real.sq_sqrt hN.le
  have hdpos : 0 < Real.sqrt N := Real.sqrt_pos.mpr hN
  nlinarith [hd2, hdpos, mul_nonneg hc hdpos.le]

lemma cos_thousandth_lt : Real.cos (1 / 1000) < 99999951 / 100000000 := by
  have h := Real.cos_bound (show |(1 / 1000 : ℝ)| ≤ 1 by rw [abs_le]; norm_num)
  have h' := (abs_le.mp h).2
  have habs : |(1 / 1000 : ℝ)| = 1 / 1000 := by rw [abs_le] at *; norm_num
  rw [habs] at h'
  nlinarith [h']

set_option maxHeartbeats 2000000 in
/-- **C7.** Oct-codec round-trip: for any unit vector `n` (exact-real model
of the float64 pipeline), `OctDecode (OctEncode n)` is a unit vector whose
angle to `n` is below `1e-3` radians. -/
theorem oct_roundtrip (n : Point3R) (hunit : dotR n n = 1) :
    dotR (OctDecode (OctEncode n)) (OctDecode (OctEncode n)) = 1 ∧
    angleR n (OctDecode (OctEncode n)) < 1 / 1000 := by
  have hunit' : n.x * n.x + n.y * n.y + n.z * n.z = 1 := hunit
  obtain ⟨hl1pos, hl1le⟩ := octL1_bounds n hunit
  obtain ⟨hpxle, hpyle⟩ := octP_abs_le n hl1pos
  obtain ⟨huxlt, hqx1, hqx2, hqxabs⟩ := quant_spec (octPx n) hpxle
  obtain ⟨huylt, hqy1, hqy2, hqyabs⟩ := quant_spec (octPy n) hpyle
  set qx := dequant (quant (octPx n)) with hqxdef
  set qy := dequant (quant (octPy n)) with hqydef
  have hdec : OctDecode (OctEncode n) = Normalize (octG qx qy) := by
    unfold OctDecode OctEncode
    rw [if_neg (ne_of_gt hl1pos), pack_shiftRight _ _ huylt, pack_land _ _ huylt,
      ← hqxdef, ← hqydef]
  have hclose := octG_close (octPx n) (octPy n) qx qy hpxle hpyle hqxabs hqyabs
  rw [octG_encode_exact n hl1pos] at hclose
  obtain ⟨hcx, hcy, hcz⟩ := hclose
  have hdx0 : |(octG qx qy).x - n.x / octL1 n| ≤
      2 * (|qx - octPx n| + |qy - octPy n|) := hcx
  have hdy0 : |(octG qx qy).y - n.y / octL1 n| ≤
      2 * (|qx - octPx n| + |qy - octPy n|) := hcy
  have hdz0 : |(octG qx qy).z - n.z / octL1 n| ≤
      |qx - octPx n| + |qy - octPy n| := hcz
  set w := octG qx qy with hwdef
  set D := |qx - octPx n| + |qy - octPy n| with hDdef
  have hD0 : 0 ≤ D := by rw [hDdef]; positivity
  have hD : D ≤ 4 / 65535 := by
    have h1 : |qx - octPx n| ≤ 2 / 65535 := abs_le.mpr ⟨by linarith, by linarith⟩
    have h2 : |qy - octPy n| ≤ 2 / 65535 := abs_le.mpr ⟨by linarith, by linarith⟩
    rw [hDdef]
    linarith
  set dx := w.x - n.x / octL1 n with hdxdef
  set dy := w.y - n.y / octL1 n with hdydef
  set dz := w.z - n.z / octL1 n with hdzdef
  clear_value qx qy w D dx dy dz
  have hnx : |n.x| ≤ 1 := comp_abs_le_one n.x n.y n.z hunit'
  have hny : |n.y| ≤ 1 := comp_abs_le_one n.y n.x n.z (by linear_combination hunit')
  have hnz : |n.z| ≤ 1 := comp_abs_le_one n.z n.x n.y (by linear_combination hunit')
  have hE : dotR n w - 1 / octL1 n = n.x * dx + n.y * dy + n.z * dz := by
    rw [hdxdef, hdydef, hdzdef]
    unfold dotR
    linear_combination (1 / octL1 n) * hunit'
  have hES : (dotR n w - 1 / octL1 n) ^ 2 ≤ dx ^ 2 + dy ^ 2 + dz ^ 2 := by
    rw [hE]
    calc (n.x * dx + n.y * dy + n.z * dz) ^ 2 ≤
        (n.x ^ 2 + n.y ^ 2 + n.z ^ 2) * (dx ^ 2 + dy ^ 2 + dz ^ 2) :=
          three_cs n.x n.y n.z dx dy dz
      _ = dx ^ 2 + dy ^ 2 + dz ^ 2 := by
          rw [show n.x ^ 2 + n.y ^ 2 + n.z ^ 2 = 1 by linear_combination hunit']
          rw [one_mul]
  have hNid : dotR w w =
      2 * dotR n w * (1 / octL1 n) - (1 / octL1 n) ^ 2 + (dx ^ 2 + dy ^ 2 + dz ^ 2) := by
    rw [hdxdef, hdydef, hdzdef]
    unfold dotR
    linear_combination (-(1 / octL1 n ^ 2)) * hunit'
  have hNu : dotR w w ≤ (dotR n w) ^ 2 + (dx ^ 2 + dy ^ 2 + dz ^ 2) := by
    linarith only [hNid, sq_nonneg (dotR n w - 1 / octL1 n)]
  have hNl : (dotR n w) ^ 2 ≤ dotR w w := by linarith only [hNid, hES]
  have hinv : (4 / 7 : ℝ) ≤ 1 / octL1 n := by
    rw [le_div_iff₀ hl1pos]
    linarith only [hl1le, hl1pos]
  have t1 : -(2 * D) ≤ n.x * dx := mul_lower_bound n.x dx (2 * D) hnx hdx0
  have t2 : -(2 * D) ≤ n.y * dy := mul_lower_bound n.y dy (2 * D) hny hdy0
  have t3 : -D ≤ n.z * dz := mul_lower_bound n.z dz D hnz hdz0
  have ha : (4 / 7 - 20 / 65535 : ℝ) ≤ dotR n w := by
    linarith only [hE, hinv, t1, t2, t3, hD]
  have hapos : (0 : ℝ) < dotR n w := by linarith only [ha]
  have ha2 : ((4 : ℝ) / 7 - 20 / 65535) ^ 2 ≤ (dotR n w) ^ 2 :=
    pow_le_pow_left₀ (by norm_num) ha 2
  have u1 : dx ^ 2 ≤ (8 / 65535 : ℝ) ^ 2 :=
    sq_le_of_abs_le dx _ (by linarith only [hdx0, hD])
  have u2 : dy ^ 2 ≤ (8 / 65535 : ℝ) ^ 2 :=
    sq_le_of_abs_le dy _ (by linarith only [hdy0, hD])
  have u3 : dz ^ 2 ≤ (4 / 65535 : ℝ) ^ 2 :=
    sq_le_of_abs_le dz _ (by linarith only [hdz0, hD])
  have hkey : (99999951 / 100000000 : ℝ) ^ 2 * dotR w w < (dotR n w) ^ 2 := by
    linarith only [hNu, ha2, u1, u2, u3]
  have hNpos : (0 : ℝ) < dotR w w := by
    nlinarith only [hNl, hapos]
  have hd2 : Real.sqrt (dotR w w) ^ 2 = dotR w w := Real.sq_sqrt (le_of_lt hNpos)
  have hdpos : 0 < Real.sqrt (dotR w w) := Real.sqrt_pos.mpr hNpos
  have hnorm : Normalize w = ⟨w.x / Real.sqrt (dotR w w), w.y / Real.sqrt (dotR w w),
      w.z / Real.sqrt (dotR w w)⟩ := by
    unfold Normalize
    dsimp only
    have hcond : ¬(Real.sqrt (w.x * w.x + w.y * w.y + w.z * w.z) = 0) :=
      ne_of_gt hdpos
    rw [if_neg hcond]
    rfl
  have hdecfull : OctDecode (OctEncode n) = ⟨w.x / Real.sqrt (dotR w w),
      w.y / Real.sqrt (dotR w w), w.z / Real.sqrt (dotR w w)⟩ := by
    rw [hdec, hnorm]
  have hs : Real.sqrt (dotR w w) * Real.sqrt (dotR w w) = dotR w w :=
    Real.mul_self_sqrt (le_of_lt hNpos)
  have hmunit : dotR (OctDecode (OctEncode n)) (OctDecode (OctEncode n)) = 1 := by
    rw [hdecfull]
    show (w.x / Real.sqrt (dotR w w)) * (w.x / Real.sqrt (dotR w w)) +
      (w.y / Real.sqrt (dotR w w)) * (w.y / Real.sqrt (dotR w w)) +
      (w.z / Real.sqrt (dotR w w)) * (w.z / Real.sqrt (dotR w w)) = 1
    rw [div_mul_div_comm, div_mul_div_comm, div_mul_div_comm, div_add_div_same,
      div_add_div_same, hs]
    exact div_self (ne_of_gt hNpos)
  have hdot : dotR n (OctDecode (OctEncode n)) = dotR n w / Real.sqrt (dotR w w) := by
    rw [hdecfull]
    show n.x * (w.x / Real.sqrt (dotR w w)) + n.y * (w.y / Real.sqrt (dotR w w)) +
      n.z * (w.z / Real.sqrt (dotR w w)) =
      (n.x * w.x + n.y * w.y + n.z * w.z) / Real.sqrt (dotR w w)
    ring
  have hangle : angleR n (OctDecode (OctEncode n)) =
      Real.arccos (dotR n w / Real.sqrt (dotR w w)) := by
    unfold angleR
    rw [hmunit, hunit, hdot, Real.sqrt_one]
    norm_num
  have hdltd : dotR n w ≤ Real.sqrt (dotR w w) :=
    calc dotR n w = Real.sqrt ((dotR n w) ^ 2) := (Real.sqrt_sq hapos.le).symm
      _ ≤ Real.sqrt (dotR w w) := Real.sqrt_le_sqrt hNl
  have hclt : (99999951 / 100000000 : ℝ) < dotR n w / Real.sqrt (dotR w w) := by
    rw [lt_div_iff₀ hdpos]
    exact sqrt_factor_lt (dotR n w) (dotR w w) _ (by norm_num) hapos hNpos hkey
  have hdle1 : dotR n w / Real.sqrt (dotR w w) ≤ 1 := by
    rw [div_le_one hdpos]
    exact hdltd
  refine ⟨hmunit, ?_⟩
  rw [hangle]
  by_contra hcon
  push_neg at hcon
  have h1 : Real.cos (Real.arccos (dotR n w / Real.sqrt (dotR w w))) ≤
      Real.cos (1 / 1000) :=
    Real.cos_le_cos_of_nonneg_of_le_pi (by norm_num) (Real.arccos_le_pi _) hcon
  rw [Real.cos_arccos (by linarith only [hclt]) hdle1] at h1
  linarith only [cos_thousandth_lt, h1, hclt]

/-- Witness for C7 at the unit vector `(1, 0, 0)`. -/
theorem oct_roundtrip_witness :
    dotR ⟨1, 0, 0⟩ ⟨1, 0, 0⟩ = 1 ∧
    (dotR (OctDecode (OctEncode ⟨1, 0, 0⟩)) (OctDecode (OctEncode ⟨1, 0, 0⟩)) = 1 ∧
     angleR ⟨1, 0, 0⟩ (OctDecode (OctEncode ⟨1, 0, 0⟩)) < 1 / 1000) :=
  ⟨by norm_num [dotR], oct_roundtrip ⟨1, 0, 0⟩ (by norm_num [dotR])⟩

end Grinder
